import Mathlib

/-!
Verification development for the Backstage documentation core of the onyx
repository: the HTML-to-Markdown converter (`html2markdown.py`) and the
Markdown section splitter (`markdown_splitter.py`).  Strings are modelled as
`List Char`; Python `str` helpers are given explicit models below.
-/

namespace Onyx

/-- Model of Python's default whitespace set used by `str.strip` / `\s`
(ASCII fragment). -/
def isPySpace (c : Char) : Bool :=
  c == ' ' || c == '\t' || c == '\n' || c == '\r' || c == '\x0B' || c == '\x0C'

/-- Model of Python's regex `\w` word-character class (ASCII fragment). -/
def isWordCh (c : Char) : Bool :=
  c.isAlphanum || c == '_'

/-- Model of Python `str.strip()` on a newline-free or general string. -/
def pstrip (l : List Char) : List Char :=
  (l.dropWhile isPySpace).rdropWhile isPySpace

/-- Model of Python `str.rstrip()`. -/
def rstripPy (l : List Char) : List Char :=
  l.rdropWhile isPySpace

/-- Model of Python `str.lower()` (ASCII fragment). -/
def lowerStr (l : List Char) : List Char :=
  l.map Char.toLower

/-- Model of Python's substring test `needle in hay`. -/
def isSubstrOf (n : List Char) : List Char → Bool
  | [] => n.isEmpty
  | c :: rest => n.isPrefixOf (c :: rest) || isSubstrOf n rest

/-- Model of Python `str.split('\n')`: never empty, splits on every newline. -/
def splitNL : List Char → List (List Char)
  | [] => [[]]
  | c :: rest =>
    if c = '\n' then [] :: splitNL rest
    else
      match splitNL rest with
      | [] => [[c]]
      | l :: ls => (c :: l) :: ls

/-- Model of Python `'\n'.join(lines)`. -/
def joinNL : List (List Char) → List Char
  | [] => []
  | [l] => l
  | l :: ls => l ++ '\n' :: joinNL ls

/-- Python slice `lines[a:b]` for natural bounds (as used with a 1-based
start line already decremented by one). -/
def sliceLines (lines : List (List Char)) (a b : Nat) : List (List Char) :=
  (lines.drop a).take (b - a)

/-- Model of the regex test `re.match(r'^(#{1,6})\s+(.+)$', s)` applied to an
already stripped line, returning the header level and the stripped title
(`group(2).strip()`), exactly as `parse_markdown_headers` consumes it. -/
def headerOf (sl : List Char) : Option (Nat × List Char) :=
  let k := (sl.takeWhile (· == '#')).length
  if 1 ≤ k ∧ k ≤ 6 then
    match sl.drop k with
    | [] => none
    | c :: rest =>
      if isPySpace c ∧ pstrip (c :: rest) ≠ [] then some (k, pstrip (c :: rest))
      else none
  else none

/-- Header metadata record from `markdown_splitter.py` (`HeaderInfo`). -/
structure HeaderInfo where
  title : List Char
  level : Nat
  anchor_id : List Char
  line_number : Nat
  deriving DecidableEq, Repr

/-- Section record from `markdown_splitter.py` (`MarkdownSection`). -/
structure MarkdownSection where
  title : List Char
  content : List Char
  level : Nat
  anchor_id : List Char
  start_line : Nat
  end_line : Nat
  deriving DecidableEq, Repr

/-- Splitting modes from `markdown_splitter.py` (`SplittingMode`). -/
inductive SplittingMode where
  | hierarchical
  | non_hierarchical
  deriving DecidableEq

/-- Model of a Python `dict[str, str]` preserving insertion order. -/
def AnchorMap : Type := List (List Char × List Char)

instance : DecidableEq AnchorMap := by
  unfold AnchorMap; infer_instance

/-- Model of `dict.get(key)`: first (unique) matching entry. -/
def dictGet (m : AnchorMap) (k : List Char) : Option (List Char) :=
  (m.find? (fun e => e.1 = k)).map (·.2)

/-- Model of `d[key] = value`: overwrite in place if present, else append. -/
def dictInsert (m : AnchorMap) (k v : List Char) : AnchorMap :=
  match m with
  | [] => [(k, v)]
  | e :: rest => if e.1 = k then (k, v) :: rest else e :: dictInsert rest k v

/-- Model of `_generate_anchor_from_title`, first regex substitution:
`re.sub(r'[^\w\s-]', '', s)` keeps only word chars, whitespace and hyphens. -/
def slugKeep (l : List Char) : List Char :=
  l.filter (fun c => isWordCh c || isPySpace c || c == '-')

/-- Model of `_generate_anchor_from_title`, second regex substitution:
`re.sub(r'[-\s]+', '-', s)` collapses each run of hyphens/whitespace to a
single hyphen. -/
def collapseHy : List Char → List Char
  | [] => []
  | [c] => if isPySpace c || c == '-' then ['-'] else [c]
  | c :: d :: rest =>
    if isPySpace c || c == '-' then
      if isPySpace d || d == '-' then collapseHy (d :: rest)
      else '-' :: collapseHy (d :: rest)
    else c :: collapseHy (d :: rest)

/-- Model of Python `str.strip('-')`. -/
def stripHyphens (l : List Char) : List Char :=
  (l.dropWhile (· == '-')).rdropWhile (· == '-')

/-- `MarkdownSectionSplitter._generate_anchor_from_title`: lowercase, drop
non-word/non-space/non-hyphen characters, collapse whitespace/hyphen runs to
single hyphens, strip leading/trailing hyphens. -/
def generate_anchor_from_title (title : List Char) : List Char :=
  stripHyphens (collapseHy (slugKeep (lowerStr title)))

/-- `MarkdownSectionSplitter._find_closest_anchor_match`: case-insensitive
exact match first, then case-insensitive substring match in either direction
(first entry in insertion order), else the generated slug. -/
def find_closest_anchor_match (title : List Char) (m : AnchorMap) : List Char :=
  let tl := lowerStr title
  match m.find? (fun e => lowerStr e.1 = tl) with
  | some e => e.2
  | none =>
    match m.find? (fun e => isSubstrOf tl (lowerStr e.1) || isSubstrOf (lowerStr e.1) tl) with
    | some e => e.2
    | none => generate_anchor_from_title title

/-- Anchor lookup inside `parse_markdown_headers`: exact `dict.get` first,
falling back to `_find_closest_anchor_match` when absent or empty. -/
def resolveAnchor (title : List Char) (m : AnchorMap) : List Char :=
  match dictGet m title with
  | some v => if v = [] then find_closest_anchor_match title m else v
  | none => find_closest_anchor_match title m

/-- Line scanner of `parse_markdown_headers`: 1-based line counter, fenced
code-block state (`in_code_block` plus the three-character opening marker),
indented-code skipping, then header-regex matching on the stripped line. -/
def parseHdrAux (m : AnchorMap) : Nat → Bool → List Char → List (List Char) → List HeaderInfo
  | _, _, _, [] => []
  | n, inCode, marker, l :: ls =>
    let sl := pstrip l
    if sl.take 3 = "```".data ∨ sl.take 3 = "~~~".data then
      if ¬ inCode then parseHdrAux m (n + 1) true (sl.take 3) ls
      else if marker.isPrefixOf sl then parseHdrAux m (n + 1) false [] ls
      else parseHdrAux m (n + 1) inCode marker ls
    else if inCode then parseHdrAux m (n + 1) inCode marker ls
    else if ("    ".data).isPrefixOf l ∨ ['\t'].isPrefixOf l then
      parseHdrAux m (n + 1) inCode marker ls
    else
      match headerOf sl with
      | some (lvl, ttl) =>
        { title := ttl, level := lvl, anchor_id := resolveAnchor ttl m,
          line_number := n } :: parseHdrAux m (n + 1) inCode marker ls
      | none => parseHdrAux m (n + 1) inCode marker ls

/-- `MarkdownSectionSplitter.parse_markdown_headers`. -/
def parse_markdown_headers (markdown_content : List Char) (m : AnchorMap) :
    List HeaderInfo :=
  parseHdrAux m 1 false [] (splitNL markdown_content)

/-- `MarkdownSectionSplitter._split_non_hierarchical`: each section ends at
the next header of any level (or at the last line). -/
def split_non_hierarchical (lines : List (List Char)) : List HeaderInfo → List MarkdownSection
  | [] => []
  | h :: rest =>
    let endL := match rest with
      | [] => lines.length
      | h2 :: _ => h2.line_number - 1
    { title := h.title,
      content := pstrip (joinNL (sliceLines lines (h.line_number - 1) endL)),
      level := h.level, anchor_id := h.anchor_id,
      start_line := h.line_number, end_line := endL } :: split_non_hierarchical lines rest

/-- `MarkdownSectionSplitter._split_hierarchical`: each section ends at the
next header whose level is less than or equal to its own (or at the last
line). -/
def split_hierarchical (lines : List (List Char)) : List HeaderInfo → List MarkdownSection
  | [] => []
  | h :: rest =>
    let endL := match rest.find? (fun h2 => h2.level ≤ h.level) with
      | some h2 => h2.line_number - 1
      | none => lines.length
    { title := h.title,
      content := pstrip (joinNL (sliceLines lines (h.line_number - 1) endL)),
      level := h.level, anchor_id := h.anchor_id,
      start_line := h.line_number, end_line := endL } :: split_hierarchical lines rest

/-- Model of a parsed HTML node (BeautifulSoup element): either a text node
or a tag with the attributes the code reads (`id`, `class` as a token list,
`href`, `src`, `alt`, `name`) and its children in document order. -/
inductive Node where
  | text (s : List Char) : Node
  | tag (nm : List Char) (idAttr : Option (List Char)) (classes : List (List Char))
      (href : Option (List Char)) (src : Option (List Char)) (alt : Option (List Char))
      (nameAttr : Option (List Char)) (children : List Node) : Node

namespace Node

/-- Tag name as BeautifulSoup exposes it: `None` for text nodes. -/
def name : Node → Option (List Char)
  | .text _ => none
  | .tag nm _ _ _ _ _ _ _ => some nm

/-- Children of a tag (empty for text nodes). -/
def childrenOf : Node → List Node
  | .text _ => []
  | .tag _ _ _ _ _ _ _ cs => cs

/-- Model of `element.get('class', [])` (class token list). -/
def classList : Node → List (List Char)
  | .text _ => []
  | .tag _ _ cl _ _ _ _ _ => cl

/-- Model of `element.get('id', '')`. -/
def idOf : Node → List Char
  | .text _ => []
  | .tag _ i _ _ _ _ _ _ => i.getD []

/-- Whether the `id` attribute is present at all (`find_all(..., id=True)`). -/
def hasId : Node → Bool
  | .text _ => false
  | .tag _ i _ _ _ _ _ _ => i.isSome

/-- Model of `element.get('href', '')`. -/
def hrefOf : Node → List Char
  | .text _ => []
  | .tag _ _ _ h _ _ _ _ => h.getD []

/-- Model of `element.get('src', '')`. -/
def srcOf : Node → List Char
  | .text _ => []
  | .tag _ _ _ _ s _ _ _ => s.getD []

/-- Model of `element.get('alt', '')`. -/
def altOf : Node → List Char
  | .text _ => []
  | .tag _ _ _ _ _ a _ _ => a.getD []

/-- Model of `element.get('name')` for anchor tags, `''` when absent. -/
def nameAttrOf : Node → List Char
  | .text _ => []
  | .tag _ _ _ _ _ _ n _ => n.getD []

/-- True for tag nodes (BeautifulSoup `Tag` as opposed to a string). -/
def isTag : Node → Bool
  | .text _ => false
  | .tag _ _ _ _ _ _ _ _ => true

end Node

mutual

/-- All strict descendants of a node in document (preorder) order, the order
in which BeautifulSoup's `find` / `find_all` traverse. -/
def ndesc : Node → List Node
  | .text _ => []
  | .tag _ _ _ _ _ _ _ cs => ndescL cs

/-- Preorder descendants of a forest. -/
def ndescL : List Node → List Node
  | [] => []
  | c :: cs => c :: (ndesc c ++ ndescL cs)

end

mutual

/-- Model of BeautifulSoup `element.get_text()`: concatenation of all text
descendants in document order. -/
def gtext : Node → List Char
  | .text s => s
  | .tag _ _ _ _ _ _ _ cs => gtextL cs

/-- Concatenated text of a forest. -/
def gtextL : List Node → List Char
  | [] => []
  | c :: cs => gtext c ++ gtextL cs

end

mutual

/-- Model of `element.find(...)` followed by `.decompose()`: remove the first
descendant (preorder) satisfying the predicate; the Bool reports whether a
removal happened. -/
def rmFirstN (p : Node → Bool) : Node → Node × Bool
  | .text s => (.text s, false)
  | .tag nm i cl h s a an cs =>
    match rmFirstL p cs with
    | (cs', b) => (.tag nm i cl h s a an cs', b)

/-- Removal of the first matching node from a forest. -/
def rmFirstL (p : Node → Bool) : List Node → List Node × Bool
  | [] => ([], false)
  | c :: cs =>
    if p c then (cs, true)
    else
      match rmFirstN p c with
      | (c', true) => (c' :: cs, true)
      | (_, false) =>
        match rmFirstL p cs with
        | (cs', b) => (c :: cs', b)

end

mutual

/-- Model of `find_all(pred)` on descendants followed by `.decompose()` on
each: drop every matching subtree. -/
def rmAllN (p : Node → Bool) : Node → Node
  | .text s => .text s
  | .tag nm i cl h s a an cs => .tag nm i cl h s a an (rmAllL p cs)

/-- Removal of all matching subtrees from a forest. -/
def rmAllL (p : Node → Bool) : List Node → List Node
  | [] => []
  | c :: cs => if p c then rmAllL p cs else rmAllN p c :: rmAllL p cs

end

mutual

/-- Structural equality of nodes, the semantics of BeautifulSoup's `==` on
tags (same name, attributes and contents). -/
def beqN : Node → Node → Bool
  | .text s, .text t => s == t
  | .tag nm1 i1 cl1 h1 s1 a1 an1 cs1, .tag nm2 i2 cl2 h2 s2 a2 an2 cs2 =>
    nm1 == nm2 && i1 == i2 && cl1 == cl2 && h1 == h2 && s1 == s2 && a1 == a2 &&
      an1 == an2 && beqL cs1 cs2
  | _, _ => false

/-- Structural equality of node lists. -/
def beqL : List Node → List Node → Bool
  | [], [] => true
  | a :: as, b :: bs => beqN a b && beqL as bs
  | _, _ => false

end

/-- Model of `element.find(pred)`: first strict descendant in document order
satisfying the predicate. -/
def findDesc (t : Node) (p : Node → Bool) : Option Node :=
  (ndesc t).find? p

/-- BeautifulSoup class filtering for a `class_` argument: the pattern matches
a tag if it equals one of the class tokens or the full space-joined class
string. -/
def classMatch (pat : List Char) (n : Node) : Bool :=
  n.classList.contains pat || List.intercalate " ".data n.classList == pat

/-- A heading tag `h1`..`h6` of the given level. -/
def isHeadingLvl (lvl : Nat) (n : Node) : Bool :=
  n.name == some ('h' :: (Nat.repr lvl).data)

/-- An `<a>` tag carrying the `headerlink` class. -/
def isHeaderlinkA (n : Node) : Bool :=
  n.name == some "a".data && classMatch "headerlink".data n

/-- `MarkdownSectionSplitter.extract_section_anchors_from_html`: for each
heading level 1..6, every heading with an `id` (document order), with the
first `headerlink` anchor removed, maps its stripped text to the id. -/
def extract_section_anchors_from_html (t : Node) : AnchorMap :=
  (List.range' 1 6).foldl (fun m lvl =>
    (((ndesc t).filter (fun n => isHeadingLvl lvl n && n.hasId)).foldl (fun m h =>
      let anchor_id := h.idOf
      if anchor_id = [] then m
      else
        let h2 := (rmFirstN isHeaderlinkA h).1
        let header_text := pstrip (gtext h2)
        if header_text ≠ [] ∧ anchor_id ≠ [] then dictInsert m header_text anchor_id
        else m) m)) []

/-- Anchor map used by `split_into_sections`: extracted from the HTML when
one is provided (`if html_content:`), empty otherwise. -/
def anchorsFor : Option Node → AnchorMap
  | some h => extract_section_anchors_from_html h
  | none => []

/-- `MarkdownSectionSplitter.split_into_sections`: extract anchors from the
HTML (when given), parse headers, fall back to a single whole-document
section when none are found, else split according to the configured mode. -/
def split_into_sections (mode : SplittingMode) (markdown_content : List Char)
    (html_content : Option Node) : List MarkdownSection :=
  let section_anchors := anchorsFor html_content
  let headers := parse_markdown_headers markdown_content section_anchors
  if headers = [] then
    [{ title := "Document".data, content := markdown_content, level := 1,
       anchor_id := "document".data, start_line := 1,
       end_line := (splitNL markdown_content).length }]
  else
    match mode with
    | .hierarchical => split_hierarchical (splitNL markdown_content) headers
    | .non_hierarchical => split_non_hierarchical (splitNL markdown_content) headers

/-- `MarkdownSectionSplitter.create_section_url`. -/
def create_section_url (base_url anchor_id : List Char) : List Char :=
  if anchor_id = [] then base_url else base_url ++ "/#".data ++ anchor_id

/-- Model of the regex test `re.match(r'^\s*[¶&;]+\s*$', line)`. -/
def isArtifactLine (l : List Char) : Bool :=
  let sym := fun c => c == '¶' || c == '&' || c == ';'
  let a := l.dropWhile isPySpace
  ¬ (a.takeWhile sym).isEmpty && (a.dropWhile sym).all isPySpace

/-- Model of the regex test `re.match(r'^\s*\d+\s*$', line)`. -/
def isNumericLine (l : List Char) : Bool :=
  let a := l.dropWhile isPySpace
  ¬ (a.takeWhile Char.isDigit).isEmpty && (a.dropWhile Char.isDigit).all isPySpace

/-- Model of the regex test `re.match(r'^\d{4}-\d{2}-\d{2}$', line)`. -/
def isDateLine : List Char → Bool
  | [a, b, c, d, h1, e, f, h2, g, i] =>
    a.isDigit && b.isDigit && c.isDigit && d.isDigit && h1 == '-' &&
      e.isDigit && f.isDigit && h2 == '-' && g.isDigit && i.isDigit
  | _ => false

/-- Per-line filtering loop of `HTMLToMarkdownConverter.clean_markdown`: each
line is right-stripped; permalink-glyph artifacts, pure-numeric lines, bare
date stamps and stray commas are dropped; runs of blank lines collapse to one
(the Bool is the loop's `prev_line_empty` flag). -/
def cleanLines : Bool → List (List Char) → List (List Char)
  | _, [] => []
  | prev, l0 :: ls =>
    let l := rstripPy l0
    if l = "¶".data ∨ l = "&para;".data ∨ isArtifactLine l then cleanLines prev ls
    else if isNumericLine l then cleanLines prev ls
    else if isDateLine l then cleanLines prev ls
    else if l = ",".data then cleanLines prev ls
    else if l = [] then
      if prev then cleanLines true ls else [] :: cleanLines true ls
    else l :: cleanLines false ls

/-- `HTMLToMarkdownConverter.clean_markdown`: filter and collapse lines, drop
trailing blank lines, and terminate with a single newline. -/
def clean_markdown (content : List Char) : List Char :=
  joinNL ((cleanLines false (splitNL content)).rdropWhile (· = [])) ++ ['\n']

/-- Model of Python `html.unescape` restricted to the core named/numeric
entities the converter can meet in practice; other text passes through. -/
def htmlUnescape : List Char → List Char
  | [] => []
  | '&' :: 'a' :: 'm' :: 'p' :: ';' :: rest => '&' :: htmlUnescape rest
  | '&' :: 'l' :: 't' :: ';' :: rest => '<' :: htmlUnescape rest
  | '&' :: 'g' :: 't' :: ';' :: rest => '>' :: htmlUnescape rest
  | '&' :: 'q' :: 'u' :: 'o' :: 't' :: ';' :: rest => '"' :: htmlUnescape rest
  | '&' :: '#' :: '3' :: '9' :: ';' :: rest => '\'' :: htmlUnescape rest
  | c :: rest => c :: htmlUnescape rest

/-- Model of `re.sub(r'^\s*\d+\s+', '', line)`: strip a leading run of
whitespace, digits, then whitespace (when all three parts are present as the
regex demands, the middle and last nonempty). -/
def subLeadingNumSpace (l : List Char) : List Char :=
  let r := l.dropWhile isPySpace
  let d := r.takeWhile Char.isDigit
  let r2 := r.drop d.length
  if ¬ d.isEmpty && ¬ (r2.takeWhile isPySpace).isEmpty then r2.dropWhile isPySpace
  else l

/-- Model of `re.sub(r'^\d+([{\[])', r'\1', line)`: drop leading digits when
immediately followed by an opening brace or bracket. -/
def subLeadNumBracket (l : List Char) : List Char :=
  let d := l.takeWhile Char.isDigit
  if ¬ d.isEmpty then
    match l.drop d.length with
    | '{' :: rest => '{' :: rest
    | '[' :: rest => '[' :: rest
    | _ => l
  else l

/-- Helper for the regex `\s*\d+\s*\n` (with Python's backtracking making the
final `\n` the last newline of the trailing whitespace run): returns how many
characters the match consumes, or `none`. -/
def numNLTail (rest : List Char) : Option Nat :=
  let w := rest.takeWhile isPySpace
  let r := rest.drop w.length
  let d := r.takeWhile Char.isDigit
  if d.isEmpty then none
  else
    let w2 := (r.drop d.length).takeWhile isPySpace
    match w2.reverse.findIdx? (fun c => c == '\n') with
    | some j => some (w.length + d.length + (w2.length - j))
    | none => none

/-- Model of `re.sub(r'\n\s*\d+\s*\n', '\n', s)`: left-to-right non
overlapping replacement of newline-delimited bare numbers. -/
def subNumNL : List Char → List Char
  | [] => []
  | c :: rest =>
    if c = '\n' then
      match numNLTail rest with
      | some k => '\n' :: subNumNL (rest.drop k)
      | none => c :: subNumNL rest
    else c :: subNumNL rest
termination_by l => l.length
decreasing_by
  · simp [List.length_drop]; omega
  · simp
  · simp

/-- Model of `re.sub(r'^\s*\d+\s*\n', '', s)`: the pattern is anchored, so at
most the leading occurrence is removed. -/
def subLeadingNumNL (s : List Char) : List Char :=
  match numNLTail s with
  | some k => s.drop k
  | none => s

/-- Model of `cls.replace('language-', '')`. -/
def removeLangMarker : List Char → List Char
  | [] => []
  | c :: rest =>
    if ("language-".data).isPrefixOf (c :: rest) then removeLangMarker (rest.drop 8)
    else c :: removeLangMarker rest
termination_by l => l.length
decreasing_by
  · simp [List.length_drop]; omega
  · simp

/-- Tags whose `class` list marks a syntax-highlighting line-number gutter. -/
def hasLinenoClass (n : Node) : Bool :=
  n.classList.contains "linenos".data || n.classList.contains "linenodiv".data

mutual

/-- The `<code>` descendants of a forest in document order, each flagged with
whether some ancestor (within the processed element) is a line-number
container — the parent-chain test of `process_code_block`. -/
def codesIn (bad : Bool) : List Node → List (Node × Bool)
  | [] => []
  | c :: cs =>
    (if c.name == some "code".data then [(c, bad)] else []) ++
      codesInChildren (bad || hasLinenoClass c) c ++ codesIn bad cs

/-- Flagged `<code>` descendants below a single node. -/
def codesInChildren (bad : Bool) : Node → List (Node × Bool)
  | .text _ => []
  | .tag _ _ _ _ _ _ _ cs => codesIn bad cs

end

mutual

/-- Concatenation of the text descendants of a forest whose ancestor chain
(within the processed element) has no line-number container — the
`find_all(text=True)` fallback of `process_code_block`. -/
def textsIn (bad : Bool) : List Node → List Char
  | [] => []
  | c :: cs => textsInOne bad c ++ textsIn bad cs

/-- Non-gutter text below a single node. -/
def textsInOne (bad : Bool) : Node → List Char
  | .text s => if bad then [] else s
  | .tag nm i cl h sr a an cs => textsIn (bad || hasLinenoClass (.tag nm i cl h sr a an cs)) cs

end

/-- `HTMLToMarkdownConverter.process_code_block`: locate the code text
(dedicated `td.code` cell, else first non-gutter `<code>`, else all
non-gutter text), unescape entities, and scrub line-number artifacts in two
passes around two anchored regex substitutions; emit a fenced block when any
content remains. -/
def process_code_block (e : Node) : List (List Char) :=
  let language := match e.classList.find? (fun cl => ("language-".data).isPrefixOf cl) with
    | some cl => removeLangMarker cl
    | none => []
  let raw :=
    match findDesc e (fun n => n.name == some "td".data && classMatch "code".data n) with
    | some cell =>
      match findDesc cell (fun n => n.name == some "code".data) with
      | some ce => gtext ce
      | none => gtext cell
    | none =>
      match (codesIn (hasLinenoClass e) e.childrenOf).find? (fun p => ¬ p.2) with
      | some p => gtext p.1
      | none => textsIn (hasLinenoClass e) e.childrenOf
  let c1 := htmlUnescape raw
  let c2 := pstrip (joinNL (cbPass1 (splitNL c1)))
  let c3 := subLeadingNumNL (subNumNL c2)
  let c5 := pstrip (joinNL (cbPass2 (splitNL c3)))
  if c5 ≠ [] then ["```".data ++ language, c5, "```".data, []] else []
where
  /-- First line pass: drop bare-number lines, strip leading number tokens,
  drop lines that became bare numbers. -/
  cbPass1 : List (List Char) → List (List Char)
    | [] => []
    | l :: ls =>
      if isNumericLine l then cbPass1 ls
      else
        let cl := subLeadingNumSpace l
        if isNumericLine cl then cbPass1 ls else cl :: cbPass1 ls
  /-- Second line pass: drop bare-number lines, strip digit prefixes glued to
  an opening brace/bracket. -/
  cbPass2 : List (List Char) → List (List Char)
    | [] => []
    | l :: ls =>
      if isNumericLine (pstrip l) then cbPass2 ls
      else subLeadNumBracket l :: cbPass2 ls

/-- `HTMLToMarkdownConverter.process_image`. -/
def process_image (img : Node) : List (List Char) :=
  if img.srcOf ≠ [] then
    ["![".data ++ img.altOf ++ "](".data ++ img.srcOf ++ ")".data, []]
  else []

/-- `HTMLToMarkdownConverter.process_link` (its return value is discarded by
every caller in the source, so it contributes no output lines). -/
def process_link (e : Node) : List Char :=
  if e.classList.contains "headerlink".data || (pstrip (gtext e)).isEmpty then []
  else if e.hrefOf ≠ [] then "[".data ++ gtext e ++ "](".data ++ e.hrefOf ++ ")".data
  else if e.nameAttrOf ≠ [] then "<a name=\"".data ++ e.nameAttrOf ++ "\"></a>".data
  else gtext e

mutual

/-- Replacement pass of `get_clean_header_text`: every named `<a>` anchor is
replaced by a literal inline anchor text node. -/
def rnaN : Node → Node
  | .text s => .text s
  | .tag nm i cl h s a an cs => .tag nm i cl h s a an (rnaL cs)

/-- Replacement of named anchors throughout a forest. -/
def rnaL : List Node → List Node
  | [] => []
  | c :: cs =>
    (if c.name == some "a".data && c.nameAttrOf ≠ [] then
      Node.text (" <a name=\"".data ++ c.nameAttrOf ++ "\"></a>".data)
    else rnaN c) :: rnaL cs

end

/-- `HTMLToMarkdownConverter.get_clean_header_text`: decompose `headerlink`
anchors, rewrite named anchors, then take the stripped text. -/
def get_clean_header_text (e : Node) : List Char :=
  pstrip (gtext (rnaN (rmAllN isHeaderlinkA e)))

mutual

/-- Children fold of `get_text_content(..., preserve_formatting=True)`:
inline code, bold, italics and links are rendered in Markdown; other tags
recurse with their own stripping. -/
def gtcL : List Node → List Char
  | [] => []
  | c :: cs => gtcOne c ++ gtcL cs

/-- One child of `get_text_content` with formatting preserved. -/
def gtcOne : Node → List Char
  | .text s => s
  | .tag nm i cl h s a an cs =>
    let n := Node.tag nm i cl h s a an cs
    if nm = "code".data then "`".data ++ gtext n ++ "`".data
    else if nm = "strong".data ∨ nm = "b".data then "**".data ++ gtext n ++ "**".data
    else if nm = "em".data ∨ nm = "i".data then "*".data ++ gtext n ++ "*".data
    else if nm = "a".data then
      let href := n.hrefOf
      let txt := gtext n
      if href ≠ [] then "[".data ++ txt ++ "](".data ++ href ++ ")".data
      else if n.nameAttrOf ≠ [] then "<a name=\"".data ++ n.nameAttrOf ++ "\"></a>".data
      else txt
    else pstrip (gtcL cs)

end

/-- `HTMLToMarkdownConverter.get_text_content` with
`preserve_formatting=True`. -/
def gtcFmt (e : Node) : List Char :=
  pstrip (gtcL e.childrenOf)

/-- Whether a direct child is a `ul` or `ol` tag. -/
def isUlOl (n : Node) : Bool :=
  n.name == some "ul".data || n.name == some "ol".data

mutual

/-- `HTMLToMarkdownConverter.process_list`: iterate direct `li` children with
bullet or numbered prefixes and two-space indentation. -/
def process_list (ordered : Bool) (indent : Nat) : Node → List (List Char)
  | .text _ => []
  | .tag _ _ _ _ _ _ _ cs => plItems ordered indent 0 cs

/-- Enumerated loop over a list element's direct children, keeping only
`li` items (the `find_all('li', recursive=False)` selection). -/
def plItems (ordered : Bool) (indent : Nat) : Nat → List Node → List (List Char)
  | _, [] => []
  | i, c :: cs =>
    if c.name == some "li".data then
      let pre := if ordered then (Nat.repr (i + 1)).data ++ ". ".data else "- ".data
      let ind := List.flatten (List.replicate indent "  ".data)
      (if c.childrenOf.any isUlOl then
        let t := gtcFmt (rmAllN isUlOl c)
        (if pstrip t ≠ [] then [ind ++ pre ++ t] else [ind ++ pre]) ++
          plNested indent c
      else
        let t := gtcFmt c
        if t ≠ [] then [ind ++ pre ++ t] else []) ++ plItems ordered indent (i + 1) cs
    else plItems ordered indent (i + 1) cs

/-- Recursion into an item's directly nested lists at one deeper indent. -/
def plNested (indent : Nat) : Node → List (List Char)
  | .text _ => []
  | .tag _ _ _ _ _ _ _ cs => plNestedL indent cs

/-- Nested-list traversal over an item's direct children. -/
def plNestedL (indent : Nat) : List Node → List (List Char)
  | [] => []
  | c :: cs =>
    (if isUlOl c then process_list (c.name == some "ol".data) (indent + 1) c else []) ++
      plNestedL indent cs

end

/-- Class substrings that make `process_element` skip a subtree entirely. -/
def skipClassList : List (List Char) :=
  ["md-nav".data, "md-sidebar".data, "md-header".data, "md-footer".data,
   "md-search".data, "headerlink".data, "md-content__button".data,
   "linenos".data, "linenodiv".data, "md-source-file".data]

/-- Text accumulated before an embedded code block inside a `<p>`: direct
children are folded, text nodes and ordinary tags contribute stripped text,
and the fold stops at the child structurally equal to the code block. -/
def textBefore (cb : Node) : List Node → List Char
  | [] => []
  | c :: cs =>
    match c with
    | .text s => pstrip s ++ textBefore cb cs
    | .tag nm i cl h sr a an ch =>
      if beqN (.tag nm i cl h sr a an ch) cb then []
      else pstrip (gtext (.tag nm i cl h sr a an ch)) ++ textBefore cb cs

/-- Paragraph handling of `process_element`: images first, then embedded code
blocks with their preceding text, then formatted text — with the blank line
suppressed (and a literal `Request Body:` override applied) when the next
sibling is a code block. -/
def pBranch (nextSib : Option Node) (n : Node) : List (List Char) :=
  match findDesc n (fun c => c.name == some "img".data) with
  | some img => process_image img
  | none =>
    match (findDesc n (fun c => c.name == some "div".data && classMatch "highlight".data c)).orElse
        (fun _ => findDesc n (fun c => c.name == some "table".data && classMatch "highlighttable".data c)) with
    | some cb =>
      let tb := textBefore cb n.childrenOf
      (if pstrip tb ≠ [] then [pstrip tb] else []) ++ process_code_block cb
    | none =>
      let t := gtcFmt n
      if pstrip t ≠ [] then
        match nextSib with
        | some ns =>
          if (ns.name == some "div".data && ns.classList ≠ [] && ns.classList.contains "highlight".data) ||
              (ns.name == some "table".data && ns.classList ≠ [] && ns.classList.contains "highlighttable".data) then
            if isSubstrOf "Request Body:".data t then ["Request Body:".data] else [t]
          else [t, []]
        | none => [t, []]
      else []

mutual

/-- `HTMLToMarkdownConverter.process_element`: the tag-dispatch recursion
emitting Markdown lines (the mutable `output_lines` accumulator is modelled
as the returned line list; return values of the inline branches are discarded
by every caller in the source and therefore emit nothing). -/
def process_element (parentName : List Char) (nextSib : Option Node) : Node → List (List Char)
  | .text s => if pstrip s ≠ [] then [pstrip s] else []
  | .tag nm i cl h sr a an cs =>
    let n := Node.tag nm i cl h sr a an cs
    if cl ≠ [] ∧ skipClassList.any (fun sk => isSubstrOf sk (List.intercalate " ".data cl)) then []
    else if nm = "a".data ∧ cl ≠ [] ∧ cl.contains "headerlink".data then []
    else if nm = "aside".data then []
    else if nm = "h1".data then ["# ".data ++ get_clean_header_text n, []]
    else if nm = "h2".data then ["## ".data ++ get_clean_header_text n, []]
    else if nm = "h3".data then ["### ".data ++ get_clean_header_text n, []]
    else if nm = "h4".data then ["#### ".data ++ get_clean_header_text n, []]
    else if nm = "h5".data then ["##### ".data ++ get_clean_header_text n, []]
    else if nm = "h6".data then ["###### ".data ++ get_clean_header_text n, []]
    else if nm = "p".data then pBranch nextSib n
    else if nm = "ul".data then process_list false 0 n ++ [[]]
    else if nm = "ol".data then process_list true 0 n ++ [[]]
    else if nm = "li".data then []
    else if nm = "code".data ∧ parentName ≠ "pre".data then []
    else if nm = "pre".data then process_code_block n
    else if nm = "div".data ∧ cl.contains "highlight".data then process_code_block n
    else if nm = "table".data ∧ cl.contains "highlighttable".data then process_code_block n
    else if nm = "img".data then process_image n
    else if nm = "a".data then []
    else if nm = "strong".data ∨ nm = "b".data then []
    else if nm = "em".data ∨ nm = "i".data then []
    else processNodes nm cs

/-- Recursion of `process_element` into a children list; each child sees the
next tag sibling (`find_next_sibling`). -/
def processNodes (parentName : List Char) : List Node → List (List Char)
  | [] => []
  | c :: cs => process_element parentName (cs.find? Node.isTag) c ++ processNodes parentName cs

end

/-- `HTMLToMarkdownConverter.convert_html_to_markdown`: locate the main
content container (known article class, generic content div, `<main>`,
`<body>`, in that order), emit the sentinel error string when none exists,
else process the subtree and clean the joined lines. -/
def convert_html_to_markdown (soup : Node) : List Char :=
  let main_content :=
    (findDesc soup (fun n => n.name == some "article".data &&
        classMatch "md-content__inner md-typeset".data n)).orElse
      (fun _ => (findDesc soup (fun n => n.name == some "div".data &&
          classMatch "md-content".data n)).orElse
        (fun _ => (findDesc soup (fun n => n.name == some "main".data)).orElse
          (fun _ => findDesc soup (fun n => n.name == some "body".data))))
  match main_content with
  | none => "Error: Could not extract content from HTML.".data
  | some m => clean_markdown (joinNL (process_element "[document]".data none m))

/-- One anchor-map entry contributed by a heading element: its cleaned text
(first `headerlink` anchor removed, then stripped) mapped to its id, when
both are nonempty — the per-heading body of
`extract_section_anchors_from_html`. -/
def headingEntryOf (h : Node) : Option (List Char × List Char) :=
  let aid := h.idOf
  if aid = [] then none
  else
    let htext := pstrip (gtext (rmFirstN isHeaderlinkA h).1)
    if htext ≠ [] ∧ aid ≠ [] then some (htext, aid) else none

/-- The anchor entries in the processing order of
`extract_section_anchors_from_html`: all `h1` headings in document order,
then all `h2` headings, …, then all `h6` headings (level-major order). -/
def levelMajorEntries (t : Node) : List (List Char × List Char) :=
  (List.range' 1 6).flatMap (fun lvl =>
    ((ndesc t).filter (fun n => isHeadingLvl lvl n && n.hasId)).filterMap headingEntryOf)

/-- The id-bearing heading entries of a document in plain document order,
at any heading level. -/
def docHeadingEntries (t : Node) : List (List Char × List Char) :=
  ((ndesc t).filter (fun n =>
    (List.range' 1 6).any (fun lvl => isHeadingLvl lvl n) && n.hasId)).filterMap
    headingEntryOf

/-- The value of the last entry with the given key in an entry sequence
(later entries dominate earlier ones). -/
def lastWrite : List (List Char × List Char) → List Char → Option (List Char)
  | [], _ => none
  | e :: es, k => (lastWrite es k).or (if e.1 = k then some e.2 else none)

/-- End line of the i-th non-hierarchical section: the line before the next
header's line, or the last line of the document. -/
def nhEnd (lines : List (List Char)) (hs : List HeaderInfo) (i : Nat) : Nat :=
  match hs[i + 1]? with
  | some h2 => h2.line_number - 1
  | none => lines.length

/-- End line of the i-th hierarchical section: the line before the next
header of level less than or equal to header i's level, or the last line of
the document. -/
def hEnd (lines : List (List Char)) (hs : List HeaderInfo) (i : Nat) : Nat :=
  match hs[i]? with
  | some h =>
    match (hs.drop (i + 1)).find? (fun h2 => h2.level ≤ h.level) with
    | some h2 => h2.line_number - 1
    | none => lines.length
  | none => lines.length

/-- The scanner state of `parse_markdown_headers` as an option: `none`
outside fenced code, `some marker` inside a fence opened by `marker`. -/
def stOf (b : Bool) (mk : List Char) : Option (List Char) :=
  if b then some mk else none

/-- One line's effect on the fenced-code state: a line whose stripped form
starts with three backticks or three tildes opens a fence when outside,
closes it only when it starts with the same marker that opened it, and any
other line leaves the state unchanged. -/
def fenceStep (st : Option (List Char)) (l : List Char) : Option (List Char) :=
  let sl := pstrip l
  if sl.take 3 = "```".data ∨ sl.take 3 = "~~~".data then
    match st with
    | none => some (sl.take 3)
    | some mk => if mk.isPrefixOf sl then none else some mk
  else st

/-- The fenced-code state in effect when the scanner reaches the given
1-based line. -/
def fenceStateAt (ls : List (List Char)) (n : Nat) : Option (List Char) :=
  (ls.take (n - 1)).foldl fenceStep none

/-- A line in the normal form `clean_markdown` emits: right-stripped and not
matching any of the filters of the cleaning loop. -/
def OkLine (l : List Char) : Prop :=
  rstripPy l = l ∧
  ¬(l = "¶".data ∨ l = "&para;".data ∨ isArtifactLine l = true) ∧
  ¬ isNumericLine l = true ∧ ¬ isDateLine l = true ∧ l ≠ ",".data

/-! ## Example inputs used by witnesses and counterexamples -/

/-- An HTML document with no article/content-div/main/body container. -/
def noContainerHtml : Node :=
  .tag "html".data none [] none none none none
    [.tag "span".data none [] none none none none [.text "x".data]]

/-- A document holding an `h2` (id "a") and then an `h1` (id "b") that share
the display text "T". -/
def dupTitleHtml : Node :=
  .tag "html".data none [] none none none none
    [.tag "h2".data (some "a".data) [] none none none none [.text "T".data],
     .tag "h1".data (some "b".data) [] none none none none [.text "T".data]]

/-! ## Lemmas -/

/-- Lookup steps over the head entry of the ordered-dict model. -/
theorem dictGet_cons (e : List Char × List Char) (rest : AnchorMap) (k : List Char) :
    dictGet (e :: rest) k = if e.1 = k then some e.2 else dictGet rest k := by
  by_cases h : e.1 = k <;> simp [dictGet, List.find?_cons, h]

/-- Updating a key in the ordered-dict model affects exactly that key. -/
theorem dictGet_dictInsert (m : AnchorMap) (k v k' : List Char) :
    dictGet (dictInsert m k v) k' = if k' = k then some v else dictGet m k' := by
  induction m with
  | nil =>
    show dictGet [(k, v)] k' = _
    rw [dictGet_cons]
    by_cases h : k' = k
    · simp [h]
    · have : ¬ k = k' := fun h' => h h'.symm
      simp [h, this, dictGet]
  | cons e rest ih =>
    by_cases he : e.1 = k
    · have hins : dictInsert (e :: rest) k v = (k, v) :: rest := by
        simp [dictInsert, he]
      rw [hins, dictGet_cons, dictGet_cons]
      by_cases h : k' = k
      · simp [h]
      · have h1 : ¬ k = k' := fun h' => h h'.symm
        have h2 : ¬ e.1 = k' := fun h' => h ((he.symm.trans h').symm)
        simp [h, h1, h2]
    · have hins : dictInsert (e :: rest) k v = e :: dictInsert rest k v := by
        simp [dictInsert, he]
      rw [hins, dictGet_cons, ih, dictGet_cons]
      by_cases hek : e.1 = k'
      · have : ¬ k' = k := fun h => he (hek.trans h)
        simp [hek, this]
      · simp [hek]

/-- Folding ordered-dict insertion over an entry sequence makes lookups see
the last write for each key, falling back to the initial map. -/
theorem foldl_insert_lookup :
    ∀ (es : List (List Char × List Char)) (m : AnchorMap) (k : List Char),
      dictGet (es.foldl (fun m e => dictInsert m e.1 e.2) m) k =
        (lastWrite es k).or (dictGet m k) := by
  intro es
  induction es with
  | nil => intro m k; simp [lastWrite]
  | cons e es ih =>
    intro m k
    simp only [List.foldl_cons, lastWrite, Option.or_assoc]
    rw [ih]
    congr 1
    rw [dictGet_dictInsert]
    by_cases h : e.1 = k
    · simp [h]
    · have : ¬ k = e.1 := fun h' => h h'.symm
      simp [h, this]

/-- A level-and-heading fold collapses to a flat fold over the level-major
entry sequence. -/
theorem foldl_levels_eq (ls : List Nat) (f : Nat → List (List Char × List Char))
    (m : AnchorMap) :
    ls.foldl (fun m lvl => (f lvl).foldl (fun m e => dictInsert m e.1 e.2) m) m =
      (ls.flatMap f).foldl (fun m e => dictInsert m e.1 e.2) m := by
  induction ls generalizing m with
  | nil => simp
  | cons lvl ls ih => simp [List.foldl_append, ih]

/-- The per-heading loop body of `extract_section_anchors_from_html` is the
insertion of `headingEntryOf` when that entry exists. -/
theorem extract_inner_eq (hs : List Node) :
    ∀ m : AnchorMap,
      hs.foldl (fun m h =>
        let anchor_id := h.idOf
        if anchor_id = [] then m
        else
          let h2 := (rmFirstN isHeaderlinkA h).1
          let header_text := pstrip (gtext h2)
          if header_text ≠ [] ∧ anchor_id ≠ [] then dictInsert m header_text anchor_id
          else m) m =
      (hs.filterMap headingEntryOf).foldl (fun m e => dictInsert m e.1 e.2) m := by
  induction hs with
  | nil => intro m; simp
  | cons h hs ih =>
    intro m
    simp only [List.foldl_cons, List.filterMap_cons]
    by_cases h1 : h.idOf = []
    · simp [headingEntryOf, h1, ih]
    · by_cases h2 : pstrip (gtext (rmFirstN isHeaderlinkA h).1) = []
      · simp [headingEntryOf, h1, h2, ih]
      · simp [headingEntryOf, h1, h2, ih]

/-- `extract_section_anchors_from_html` is the dictionary fold of the
level-major entry sequence. -/
theorem extract_eq_fold (t : Node) :
    extract_section_anchors_from_html t =
      (levelMajorEntries t).foldl (fun m e => dictInsert m e.1 e.2) [] := by
  unfold extract_section_anchors_from_html levelMajorEntries
  rw [← foldl_levels_eq]
  congr 1
  funext m lvl
  exact extract_inner_eq _ m

/-- Every header the scanner emits lies in the line-number window of the
remaining lines. -/
theorem parseHdrAux_mem_bounds (m : AnchorMap) (ls : List (List Char)) :
    ∀ (n : Nat) (b : Bool) (mk : List Char) (h : HeaderInfo),
      h ∈ parseHdrAux m n b mk ls → n ≤ h.line_number ∧ h.line_number < n + ls.length := by
  induction ls with
  | nil => intro n b mk h hh; simp [parseHdrAux] at hh
  | cons l ls ih =>
    intro n b mk h hh
    rw [parseHdrAux] at hh
    simp only [List.length_cons]
    split at hh
    · split at hh
      · have := ih (n + 1) _ _ _ hh; omega
      · split at hh
        · have := ih (n + 1) _ _ _ hh; omega
        · have := ih (n + 1) _ _ _ hh; omega
    · split at hh
      · have := ih (n + 1) _ _ _ hh; omega
      · split at hh
        · have := ih (n + 1) _ _ _ hh; omega
        · split at hh
          · rcases List.mem_cons.mp hh with rfl | hh'
            · simp
            · have := ih (n + 1) _ _ _ hh'; omega
          · have := ih (n + 1) _ _ _ hh; omega

/-- The scanner emits headers in strictly increasing line order. -/
theorem parseHdrAux_pairwise (m : AnchorMap) (ls : List (List Char)) :
    ∀ (n : Nat) (b : Bool) (mk : List Char),
      (parseHdrAux m n b mk ls).Pairwise
        (fun a b => a.line_number < b.line_number) := by
  induction ls with
  | nil => intro n b mk; simp [parseHdrAux]
  | cons l ls ih =>
    intro n b mk
    rw [parseHdrAux]
    split
    · split
      · exact ih (n + 1) _ _
      · split
        · exact ih (n + 1) _ _
        · exact ih (n + 1) _ _
    · split
      · exact ih (n + 1) _ _
      · split
        · exact ih (n + 1) _ _
        · split
          · refine List.pairwise_cons.mpr ⟨?_, ih (n + 1) _ _⟩
            intro x hx
            have := parseHdrAux_mem_bounds m ls (n + 1) _ _ x hx
            simp only []
            omega
          · exact ih (n + 1) _ _

/-- Parsed headers carry 1-based line numbers within the document. -/
theorem parse_markdown_headers_bounds (md : List Char) (m : AnchorMap) :
    ∀ h ∈ parse_markdown_headers md m,
      1 ≤ h.line_number ∧ h.line_number ≤ (splitNL md).length := by
  intro h hh
  have := parseHdrAux_mem_bounds m (splitNL md) 1 false [] h hh
  omega

/-- Parsed headers are sorted by strictly increasing line number. -/
theorem parse_markdown_headers_pairwise (md : List Char) (m : AnchorMap) :
    (parse_markdown_headers md m).Pairwise
      (fun a b => a.line_number < b.line_number) :=
  parseHdrAux_pairwise m (splitNL md) 1 false []

/-- Index-wise characterization of the non-hierarchical sections. -/
theorem splitNH_getElem? (lines : List (List Char)) :
    ∀ (hs : List HeaderInfo) (i : Nat) (h : HeaderInfo),
      hs[i]? = some h →
      (split_non_hierarchical lines hs)[i]? = some
        { title := h.title, level := h.level, anchor_id := h.anchor_id,
          start_line := h.line_number, end_line := nhEnd lines hs i,
          content := pstrip (joinNL (sliceLines lines (h.line_number - 1)
            (nhEnd lines hs i))) } := by
  intro hs
  induction hs with
  | nil => intro i h hi; simp at hi
  | cons h0 rest ih =>
    intro i h hi
    cases i with
    | zero =>
      simp only [List.getElem?_cons_zero, Option.some.injEq] at hi
      subst hi
      cases rest with
      | nil => simp [split_non_hierarchical, nhEnd]
      | cons h2 rest' => simp [split_non_hierarchical, nhEnd]
    | succ i =>
      simp only [List.getElem?_cons_succ] at hi
      have := ih i h hi
      cases rest with
      | nil => simp at hi
      | cons h2 rest' =>
        simpa [split_non_hierarchical, nhEnd, List.getElem?_cons_succ] using this

/-- Index-wise characterization of the hierarchical sections. -/
theorem splitH_getElem? (lines : List (List Char)) :
    ∀ (hs : List HeaderInfo) (i : Nat) (h : HeaderInfo),
      hs[i]? = some h →
      (split_hierarchical lines hs)[i]? = some
        { title := h.title, level := h.level, anchor_id := h.anchor_id,
          start_line := h.line_number, end_line := hEnd lines hs i,
          content := pstrip (joinNL (sliceLines lines (h.line_number - 1)
            (hEnd lines hs i))) } := by
  intro hs
  induction hs with
  | nil => intro i h hi; simp at hi
  | cons h0 rest ih =>
    intro i h hi
    cases i with
    | zero =>
      simp only [List.getElem?_cons_zero, Option.some.injEq] at hi
      subst hi
      simp [split_hierarchical, hEnd]
    | succ i =>
      simp only [List.getElem?_cons_succ] at hi
      have := ih i h hi
      simpa [split_hierarchical, hEnd, List.getElem?_cons_succ] using this

/-- Lengths of the two splittings agree with the header count. -/
theorem splitNH_length (lines : List (List Char)) :
    ∀ hs : List HeaderInfo, (split_non_hierarchical lines hs).length = hs.length := by
  intro hs
  induction hs with
  | nil => simp [split_non_hierarchical]
  | cons h rest ih => simp [split_non_hierarchical, ih]

/-- Length of the hierarchical splitting. -/
theorem splitH_length (lines : List (List Char)) :
    ∀ hs : List HeaderInfo, (split_hierarchical lines hs).length = hs.length := by
  intro hs
  induction hs with
  | nil => simp [split_hierarchical]
  | cons h rest ih => simp [split_hierarchical, ih]

/-- A take of a drop is an infix. -/
theorem take_drop_infix {α : Type} (x : List α) (m n : Nat) :
    (x.drop m).take n <:+: x := by
  refine ⟨x.take m, (x.drop m).drop n, ?_⟩
  rw [List.append_assoc, List.take_append_drop, List.take_append_drop]

/-- Shrinking both ends of a slice yields an infix of the original slice. -/
theorem sliceLines_infix (lines : List (List Char)) (a b a' b' : Nat)
    (ha : a ≤ a') (hb : b' ≤ b) :
    sliceLines lines a' b' <:+: sliceLines lines a b := by
  have hrepr : sliceLines lines a' b' =
      ((sliceLines lines a b).drop (a' - a)).take (b' - a') := by
    unfold sliceLines
    rw [List.drop_take, List.drop_drop]
    rw [show a + (a' - a) = a' from by omega]
    rw [List.take_take]
    congr 1
    omega
  rw [hrepr]
  exact take_drop_infix _ _ _

/-- Joining is monotone for nonempty appends on both sides. -/
theorem joinNL_append (a b : List (List Char)) (ha : a ≠ []) (hb : b ≠ []) :
    joinNL (a ++ b) = joinNL a ++ '\n' :: joinNL b := by
  induction a with
  | nil => exact absurd rfl ha
  | cons x a ih =>
    cases a with
    | nil =>
      cases b with
      | nil => exact absurd rfl hb
      | cons y b => rfl
    | cons x' a' =>
      have : joinNL ((x' :: a') ++ b) = joinNL (x' :: a') ++ '\n' :: joinNL b :=
        ih (by simp)
      show x ++ '\n' :: joinNL ((x' :: a') ++ b) = (x ++ '\n' :: joinNL (x' :: a')) ++ '\n' :: joinNL b
      rw [this]
      simp

/-- Joining preserves the infix relation on line lists. -/
theorem joinNL_infix (l1 l2 : List (List Char)) (h : l1 <:+: l2) :
    joinNL l1 <:+: joinNL l2 := by
  obtain ⟨p, s, rfl⟩ := h
  by_cases h1 : l1 = []
  · subst h1; exact List.nil_infix
  by_cases hp : p = []
  · subst hp
    by_cases hs : s = []
    · subst hs; simp
    · rw [List.nil_append, joinNL_append l1 s h1 hs]
      exact ⟨[], '\n' :: joinNL s, by simp⟩
  · by_cases hs : s = []
    · subst hs
      rw [List.append_nil, joinNL_append p l1 hp h1]
      exact ⟨joinNL p ++ ['\n'], [], by simp⟩
    · rw [List.append_assoc, joinNL_append p (l1 ++ s) hp (by simp [h1]),
        joinNL_append l1 s h1 hs]
      exact ⟨joinNL p ++ ['\n'], '\n' :: joinNL s, by simp⟩

/-- Stripping returns an infix of the original character list. -/
theorem pstrip_infix_self (s : List Char) : pstrip s <:+: s := by
  have h1 : pstrip s <+: s.dropWhile isPySpace := List.rdropWhile_prefix _ _
  have h2 : s.dropWhile isPySpace <:+ s := List.dropWhile_suffix _
  exact h1.isInfix.trans h2.isInfix

/-- The head surviving a `dropWhile` falsifies the predicate. -/
theorem head?_dropWhile_false {α : Type} (p : α → Bool) (l : List α) :
    ∀ x, (l.dropWhile p).head? = some x → p x = false := by
  induction l with
  | nil => intro x hx; simp at hx
  | cons a l ih =>
    intro x hx
    by_cases hp : p a
    · rw [List.dropWhile_cons_of_pos hp] at hx
      exact ih x hx
    · rw [List.dropWhile_cons_of_neg hp] at hx
      simp only [List.head?_cons, Option.some.injEq] at hx
      subst hx
      exact Bool.eq_false_iff.mpr hp

/-- A nonempty prefix shares its head with the larger list. -/
theorem head?_of_pre {α : Type} {l m : List α} (h : l <+: m) {x : α}
    (hx : l.head? = some x) : m.head? = some x := by
  obtain ⟨t, rfl⟩ := h
  cases l with
  | nil => simp at hx
  | cons a l => simpa using hx

/-- The reverse of `rdropWhile` is `dropWhile` of the reverse. -/
theorem reverse_rdropWhile {α : Type} (p : α → Bool) (l : List α) :
    (l.rdropWhile p).reverse = l.reverse.dropWhile p := by
  rw [List.rdropWhile, List.reverse_reverse]

/-- The head of a stripped list is not whitespace. -/
theorem pstrip_head?_false (s : List Char) :
    ∀ x, (pstrip s).head? = some x → isPySpace x = false := by
  intro x hx
  have hpre := List.rdropWhile_prefix isPySpace (s.dropWhile isPySpace)
  exact head?_dropWhile_false isPySpace s x (head?_of_pre hpre hx)

/-- The last element of a stripped list is not whitespace. -/
theorem pstrip_getLast?_false (s : List Char) :
    ∀ x, (pstrip s).getLast? = some x → isPySpace x = false := by
  intro x hx
  rw [List.getLast?_eq_head?_reverse, pstrip, reverse_rdropWhile] at hx
  exact head?_dropWhile_false isPySpace _ x hx

/-- An infix whose head is not dropped survives a front `dropWhile`. -/
theorem infix_dropWhile {α : Type} (p : α → Bool) :
    ∀ (l c : List α), c <:+: l → (∀ x, c.head? = some x → p x = false) →
      c <:+: l.dropWhile p := by
  intro l
  induction l with
  | nil =>
    intro c hc _
    have := List.eq_nil_of_infix_nil hc
    subst this
    exact List.nil_infix
  | cons a l ih =>
    intro c hc hhead
    by_cases hp : p a
    · rw [List.dropWhile_cons_of_pos hp]
      rcases List.infix_cons_iff.mp hc with hpre | hinf
      · cases c with
        | nil => exact List.nil_infix
        | cons y c' =>
          obtain ⟨t, ht⟩ := hpre
          have hy : y = a := by
            have h' := congrArg List.head? ht
            simp only [List.cons_append, List.head?_cons, Option.some.injEq] at h'
            exact h'
          subst hy
          have h2 := hhead y rfl
          rw [h2] at hp
          exact absurd hp (by simp)
      · exact ih c hinf hhead
    · rw [List.dropWhile_cons_of_neg hp]
      exact hc

/-- An infix whose last element is not dropped survives a rear
`rdropWhile`. -/
theorem infix_rdropWhile {α : Type} (p : α → Bool) (l c : List α)
    (hc : c <:+: l) (hlast : ∀ x, c.getLast? = some x → p x = false) :
    c <:+: l.rdropWhile p := by
  rw [← List.reverse_infix, reverse_rdropWhile]
  refine infix_dropWhile p l.reverse c.reverse (List.reverse_infix.mpr hc) ?_
  intro x hx
  rw [List.head?_reverse] at hx
  exact hlast x hx

/-- An infix with non-whitespace endpoints survives stripping. -/
theorem infix_pstrip (l c : List Char) (hc : c <:+: l)
    (hhead : ∀ x, c.head? = some x → isPySpace x = false)
    (hlast : ∀ x, c.getLast? = some x → isPySpace x = false) :
    c <:+: pstrip l := by
  unfold pstrip
  exact infix_rdropWhile isPySpace _ c (infix_dropWhile isPySpace l c hc hhead) hlast

/-- Searching from a later drop point agrees with searching from an earlier
one when every skipped element falsifies the predicate. -/
theorem find?_drop_shift (p : HeaderInfo → Bool) (hs : List HeaderInfo) :
    ∀ (n i : Nat),
      (∀ k x, i ≤ k → k < i + n → hs[k]? = some x → p x = false) →
      (hs.drop i).find? p = (hs.drop (i + n)).find? p := by
  intro n
  induction n with
  | zero => intro i _; rfl
  | succ n ih =>
    intro i hfail
    have hstep : (hs.drop i).find? p = (hs.drop (i + 1)).find? p := by
      cases hd : hs.drop i with
      | nil =>
        have hlen : hs.length ≤ i := List.getElem?_eq_none_iff.mp (by
          rw [← List.head?_drop, hd]; rfl)
        rw [List.drop_eq_nil_of_le (le_trans hlen (by omega))]
      | cons x rest =>
        have hx : hs[i]? = some x := by
          rw [← List.head?_drop, hd, List.head?_cons]
        have hpx : p x = false := hfail i x (le_refl i) (by omega) hx
        have hrest : rest = hs.drop (i + 1) := by
          have ht := List.tail_drop hs i
          rw [hd] at ht
          exact ht
        rw [List.find?_cons_of_neg _ (by simp [hpx]), hrest]
    rw [hstep, show i + (n + 1) = (i + 1) + n from by omega]
    exact ih (i + 1) (fun k x hk1 hk2 hkx => hfail k x (by omega) (by omega) hkx)

/-- When one predicate implies another, the first match of the stronger
predicate cannot precede (in line order) the first match of the weaker one,
over a line-sorted list. -/
theorem find?_first_line_le (P Q : HeaderInfo → Bool)
    (hmono : ∀ x, P x = true → Q x = true) :
    ∀ (l : List HeaderInfo),
      l.Pairwise (fun a b => a.line_number < b.line_number) →
      ∀ y z, l.find? P = some y → l.find? Q = some z →
        z.line_number ≤ y.line_number := by
  intro l
  induction l with
  | nil => intro _ y z hy _; simp at hy
  | cons c l ih =>
    intro hpw y z hy hz
    by_cases hq : Q c = true
    · rw [List.find?_cons_of_pos _ hq] at hz
      have hzc : z = c := (Option.some_inj.mp hz).symm
      by_cases hp : P c = true
      · rw [List.find?_cons_of_pos _ hp] at hy
        have hyc : y = c := (Option.some_inj.mp hy).symm
        rw [hzc, hyc]
      · rw [List.find?_cons_of_neg _ hp] at hy
        have hym : y ∈ l := List.mem_of_find?_eq_some hy
        have := (List.pairwise_cons.mp hpw).1 y hym
        rw [hzc]
        omega
    · have hp : P c = false := by
        cases hP : P c
        · rfl
        · exact absurd (hmono c hP) hq
      rw [List.find?_cons_of_neg _ (by simp [hp])] at hy
      rw [List.find?_cons_of_neg _ hq] at hz
      exact ih (List.pairwise_cons.mp hpw).2 y z hy hz

/-- Closed form of `hEnd` at a defined index. -/
theorem hEnd_eq (lines : List (List Char)) (hs : List HeaderInfo) (i : Nat)
    (h : HeaderInfo) (hh : hs[i]? = some h) :
    hEnd lines hs i =
      match (hs.drop (i + 1)).find? (fun h2 => decide (h2.level ≤ h.level)) with
      | some h2 => h2.line_number - 1
      | none => lines.length := by
  unfold hEnd
  rw [hh]

/-- A deeper header's hierarchical section, taken before the next
sibling-or-shallower header, ends no later than its ancestor's section. -/
theorem hEnd_mono (lines : List (List Char)) (hs : List HeaderInfo)
    (hpw : hs.Pairwise (fun a b => a.line_number < b.line_number))
    (hb : ∀ x ∈ hs, x.line_number ≤ lines.length)
    (i j : Nat) (hi' hj' : HeaderInfo)
    (hgi : hs[i]? = some hi') (hgj : hs[j]? = some hj')
    (hij : i < j) (hlv : hi'.level < hj'.level)
    (hbet : ∀ (k : Nat) (hk : HeaderInfo), i < k → k < j → hs[k]? = some hk →
      hi'.level < hk.level) :
    hEnd lines hs j ≤ hEnd lines hs i := by
  rw [hEnd_eq lines hs i hi' hgi, hEnd_eq lines hs j hj' hgj]
  have hshift : (hs.drop (i + 1)).find? (fun h2 => decide (h2.level ≤ hi'.level)) =
      (hs.drop (j + 1)).find? (fun h2 => decide (h2.level ≤ hi'.level)) := by
    have hmain := find?_drop_shift (fun h2 => decide (h2.level ≤ hi'.level)) hs
      (j - i) (i + 1) ?_
    · rw [show (i + 1) + (j - i) = j + 1 from by omega] at hmain
      exact hmain
    · intro k x hk1 hk2 hkx
      by_cases hkj : k = j
      · subst hkj
        rw [hgj] at hkx
        have hx : x = hj' := (Option.some_inj.mp hkx).symm
        subst hx
        simp only [decide_eq_false_iff_not]
        omega
      · have := hbet k x (by omega) (by omega) hkx
        simp only [decide_eq_false_iff_not]
        omega
  rw [hshift]
  have hpdl : (hs.drop (j + 1)).Pairwise
      (fun a b => a.line_number < b.line_number) :=
    List.Pairwise.sublist (List.drop_sublist _ _) hpw
  cases ej : (hs.drop (j + 1)).find? (fun h2 => decide (h2.level ≤ hj'.level)) with
  | none =>
    cases ei : (hs.drop (j + 1)).find? (fun h2 => decide (h2.level ≤ hi'.level)) with
    | none =>
      show lines.length ≤ lines.length
      exact le_refl _
    | some y =>
      exfalso
      have h1 := List.find?_some ei
      have h2 := List.find?_eq_none.mp ej y (List.mem_of_find?_eq_some ei)
      simp only [decide_eq_true_eq] at h1 h2
      omega
  | some z =>
    cases ei : (hs.drop (j + 1)).find? (fun h2 => decide (h2.level ≤ hi'.level)) with
    | none =>
      show z.line_number - 1 ≤ lines.length
      have hzm : z ∈ hs := List.mem_of_mem_drop (List.mem_of_find?_eq_some ej)
      have := hb z hzm
      omega
    | some y =>
      show z.line_number - 1 ≤ y.line_number - 1
      have := find?_first_line_le (fun h2 => decide (h2.level ≤ hi'.level))
        (fun h2 => decide (h2.level ≤ hj'.level))
        (fun x hx => by
          simp only [decide_eq_true_eq] at hx ⊢
          omega)
        (hs.drop (j + 1)) hpdl y z ei ej
      omega

/-- For sorted, in-bounds headers the hierarchical section never ends before
the non-hierarchical one. -/
theorem nhEnd_le_hEnd (lines : List (List Char)) (hs : List HeaderInfo) (i : Nat)
    (h : HeaderInfo) (hh : hs[i]? = some h)
    (hpw : hs.Pairwise (fun a b => a.line_number < b.line_number))
    (hb : ∀ x ∈ hs, x.line_number ≤ lines.length) :
    nhEnd lines hs i ≤ hEnd lines hs i := by
  unfold nhEnd hEnd
  rw [hh]
  cases e2 : hs[i + 1]? with
  | none =>
    have hdl : hs.drop (i + 1) = [] := by
      have := List.getElem?_eq_none_iff.mp e2
      exact List.drop_eq_nil_of_le this
    simp [hdl]
  | some h2 =>
    have hdl : (hs.drop (i + 1)).head? = some h2 := by
      rw [List.head?_drop]; exact e2
    have hmem2 : h2 ∈ hs := by
      have : h2 ∈ hs.drop (i + 1) := List.mem_of_mem_head? hdl
      exact List.mem_of_mem_drop this
    have hpdl : (hs.drop (i + 1)).Pairwise
        (fun a b => a.line_number < b.line_number) :=
      List.Pairwise.sublist (List.drop_sublist _ _) hpw
    cases hdrop : hs.drop (i + 1) with
    | nil => rw [hdrop] at hdl; simp at hdl
    | cons hd tl =>
      rw [hdrop] at hdl hpdl
      simp only [List.head?_cons, Option.some.injEq] at hdl
      subst hdl
      show hd.line_number - 1 ≤
        (match List.find? (fun h2 => decide (h2.level ≤ h.level)) (hd :: tl) with
          | some h2 => h2.line_number - 1
          | none => lines.length)
      cases ef : List.find? (fun h2 => decide (h2.level ≤ h.level)) (hd :: tl) with
      | none =>
        show hd.line_number - 1 ≤ lines.length
        have := hb hd hmem2
        omega
      | some hj =>
        show hd.line_number - 1 ≤ hj.line_number - 1
        have hjm : hj ∈ hd :: tl := List.mem_of_find?_eq_some ef
        rcases List.mem_cons.mp hjm with rfl | hjm'
        · omega
        · have : hd.line_number < hj.line_number :=
            (List.pairwise_cons.mp hpdl).1 hj hjm'
          omega

/-- The line ranges of consecutive non-hierarchical sections tile the suffix
of the document that starts at the first header's line. -/
theorem splitNH_cover (lines : List (List Char)) :
    ∀ (hs : List HeaderInfo) (h : HeaderInfo),
      List.Chain' (fun a b => a.line_number < b.line_number) (h :: hs) →
      (split_non_hierarchical lines (h :: hs)).flatMap
          (fun s => sliceLines lines (s.start_line - 1) s.end_line) =
        lines.drop (h.line_number - 1) := by
  intro hs
  induction hs with
  | nil =>
    intro h _
    simp only [split_non_hierarchical, List.flatMap_cons, List.flatMap_nil,
      List.append_nil, sliceLines]
    rw [← List.length_drop, List.take_length]
  | cons h2 rest ih =>
    intro h hch
    have hlt : h.line_number < h2.line_number := hch.rel_head
    have hch2 : List.Chain' (fun a b => a.line_number < b.line_number) (h2 :: rest) :=
      hch.tail
    simp only [split_non_hierarchical, List.flatMap_cons] at *
    rw [ih h2 hch2]
    show sliceLines lines (h.line_number - 1) (h2.line_number - 1) ++
        lines.drop (h2.line_number - 1) = lines.drop (h.line_number - 1)
    have hle : h.line_number - 1 ≤ h2.line_number - 1 := by omega
    rw [show h2.line_number - 1 =
        (h.line_number - 1) + ((h2.line_number - 1) - (h.line_number - 1)) by omega]
    rw [← List.drop_drop]
    simp only [sliceLines, Nat.add_sub_cancel_left]
    exact List.take_append_drop _ _

/-- Each non-hierarchical section's content field is the stripped text of its
own line range. -/
theorem splitNH_content (lines : List (List Char)) :
    ∀ (hs : List HeaderInfo), ∀ s ∈ split_non_hierarchical lines hs,
      s.content = pstrip (joinNL (sliceLines lines (s.start_line - 1) s.end_line)) := by
  intro hs
  induction hs with
  | nil => intro s hs'; simp [split_non_hierarchical] at hs'
  | cons h rest ih =>
    intro s hs'
    simp only [split_non_hierarchical, List.mem_cons] at hs'
    rcases hs' with rfl | hs'
    · rfl
    · exact ih s hs'

/-- Consecutive non-hierarchical sections are contiguous: each next section
starts on the line after the previous section's end line. -/
theorem splitNH_contiguous (lines : List (List Char)) :
    ∀ (hs : List HeaderInfo),
      List.Chain' (fun a b => a.line_number < b.line_number) hs →
      List.Chain' (fun s t => t.start_line = s.end_line + 1)
        (split_non_hierarchical lines hs) := by
  intro hs
  induction hs with
  | nil => intro _; simp [split_non_hierarchical]
  | cons h rest ih =>
    intro hch
    cases rest with
    | nil => simp [split_non_hierarchical]
    | cons h2 rest' =>
      have hlt : h.line_number < h2.line_number := hch.rel_head
      refine List.Chain'.cons' (ih hch.tail) ?_
      intro t ht
      simp only [split_non_hierarchical, List.head?_cons, Option.mem_def,
        Option.some.injEq] at ht
      subst ht
      show h2.line_number = (h2.line_number - 1) + 1
      omega

/-- Right-stripping is idempotent. -/
theorem rdropWhile_idem {α : Type} (p : α → Bool) (l : List α) :
    (l.rdropWhile p).rdropWhile p = l.rdropWhile p :=
  List.rdropWhile_eq_self_iff.mpr (fun h => List.rdropWhile_last_not p l h)

/-- A chain restricted to a prefix remains a chain. -/
theorem chain'_of_prefix {α : Type} {R : α → α → Prop} {l m : List α}
    (h : l <+: m) (hc : List.Chain' R m) : List.Chain' R l := by
  obtain ⟨t, rfl⟩ := h
  exact (List.chain'_append.mp hc).1

/-- `splitNL` never returns the empty list of lines. -/
theorem splitNL_ne_nil (s : List Char) : splitNL s ≠ [] := by
  cases s with
  | nil => simp [splitNL]
  | cons c rest =>
    rw [splitNL]
    split
    · simp
    · split <;> simp

/-- Lines produced by `splitNL` contain no newline. -/
theorem splitNL_no_nl (s : List Char) : ∀ l ∈ splitNL s, '\n' ∉ l := by
  induction s with
  | nil =>
    intro l hl
    simp only [splitNL, List.mem_singleton] at hl
    subst hl
    simp
  | cons c rest ih =>
    intro l hl
    rw [splitNL] at hl
    split at hl
    · rcases List.mem_cons.mp hl with rfl | h
      · simp
      · exact ih l h
    · rename_i hc
      split at hl
      · rename_i heq
        rcases List.mem_singleton.mp hl with rfl
        simp only [List.mem_singleton, List.mem_cons]
        intro hx
        rcases hx with hx | hx
        · exact hc hx.symm
        · simp at hx
      · rename_i l' ls' heq
        rcases List.mem_cons.mp hl with rfl | h
        · intro hx
          rcases List.mem_cons.mp hx with hx | hx
          · exact hc hx.symm
          · exact ih l' (heq ▸ List.mem_cons_self _ _) hx
        · exact ih l (heq ▸ List.mem_cons_of_mem _ h)

/-- `splitNL` splits off a newline-free first line. -/
theorem splitNL_append_cons (l y : List Char) (h : '\n' ∉ l) :
    splitNL (l ++ '\n' :: y) = l :: splitNL y := by
  induction l with
  | nil => simp [splitNL]
  | cons c l ih =>
    have hc : ¬ c = '\n' := fun hx => h (by simp [hx])
    have h' : '\n' ∉ l := fun hx => h (List.mem_cons_of_mem _ hx)
    rw [List.cons_append, splitNL, if_neg hc, ih h']

/-- A newline-free string is a single line. -/
theorem splitNL_of_no_nl (l : List Char) (h : '\n' ∉ l) : splitNL l = [l] := by
  induction l with
  | nil => rfl
  | cons c l ih =>
    have hc : ¬ c = '\n' := fun hx => h (by simp [hx])
    have h' : '\n' ∉ l := fun hx => h (List.mem_cons_of_mem _ hx)
    rw [splitNL, if_neg hc, ih h']

/-- Splitting a newline-terminated join recovers the lines plus one final
empty line. -/
theorem splitNL_joinNL_concat (ls : List (List Char)) :
    ls ≠ [] → (∀ l ∈ ls, '\n' ∉ l) →
    splitNL (joinNL ls ++ ['\n']) = ls ++ [[]] := by
  induction ls with
  | nil => intro hne _; exact absurd rfl hne
  | cons l ls ih =>
    intro _ hnl
    cases ls with
    | nil =>
      show splitNL (l ++ ['\n']) = [l, []]
      have h0 : l ++ ['\n'] = l ++ '\n' :: ([] : List Char) := rfl
      rw [h0, splitNL_append_cons l [] (hnl l (List.mem_cons_self _ _))]
      rfl
    | cons l2 ls2 =>
      show splitNL ((l ++ '\n' :: joinNL (l2 :: ls2)) ++ ['\n']) = _
      rw [List.append_assoc, List.cons_append,
        splitNL_append_cons l (joinNL (l2 :: ls2) ++ ['\n'])
          (hnl l (List.mem_cons_self _ _)),
        ih (by simp) (fun x hx => hnl x (List.mem_cons_of_mem _ hx))]
      rfl

/-- The empty line is in cleaned normal form. -/
theorem okLine_nil : OkLine [] :=
  ⟨rfl, by decide, by decide, by decide, by decide⟩

/-- Every line emitted by the cleaning loop is in normal form. -/
theorem cleanLines_ok (ls : List (List Char)) :
    ∀ (b : Bool), ∀ l ∈ cleanLines b ls, OkLine l := by
  induction ls with
  | nil => intro b l hl; simp [cleanLines] at hl
  | cons l0 ls ih =>
    intro b l hl
    simp only [cleanLines] at hl
    by_cases h1 : rstripPy l0 = "¶".data ∨ rstripPy l0 = "&para;".data ∨
        isArtifactLine (rstripPy l0) = true
    · rw [if_pos h1] at hl; exact ih _ l hl
    · rw [if_neg h1] at hl
      by_cases h2 : isNumericLine (rstripPy l0) = true
      · rw [if_pos h2] at hl; exact ih _ l hl
      · rw [if_neg h2] at hl
        by_cases h3 : isDateLine (rstripPy l0) = true
        · rw [if_pos h3] at hl; exact ih _ l hl
        · rw [if_neg h3] at hl
          by_cases h4 : rstripPy l0 = ",".data
          · rw [if_pos h4] at hl; exact ih _ l hl
          · rw [if_neg h4] at hl
            by_cases h5 : rstripPy l0 = []
            · rw [if_pos h5] at hl
              cases b with
              | true => exact ih _ l hl
              | false =>
                rcases List.mem_cons.mp hl with rfl | h
                · exact okLine_nil
                · exact ih _ l h
            · rw [if_neg h5] at hl
              rcases List.mem_cons.mp hl with rfl | h
              · exact ⟨rdropWhile_idem _ _, h1, h2, h3, h4⟩
              · exact ih _ l h

/-- The cleaning loop never keeps a newline inside a line. -/
theorem cleanLines_no_nl (ls : List (List Char)) (hnl : ∀ l ∈ ls, '\n' ∉ l) :
    ∀ (b : Bool), ∀ l ∈ cleanLines b ls, '\n' ∉ l := by
  induction ls with
  | nil => intro b l hl; simp [cleanLines] at hl
  | cons l0 ls ih =>
    have hl0 : '\n' ∉ l0 := hnl l0 (List.mem_cons_self _ _)
    have hls : ∀ l ∈ ls, '\n' ∉ l := fun l hl => hnl l (List.mem_cons_of_mem _ hl)
    have hstr : '\n' ∉ rstripPy l0 := fun hx =>
      hl0 ((List.rdropWhile_prefix isPySpace l0).subset hx)
    intro b l hl
    simp only [cleanLines] at hl
    by_cases h1 : rstripPy l0 = "¶".data ∨ rstripPy l0 = "&para;".data ∨
        isArtifactLine (rstripPy l0) = true
    · rw [if_pos h1] at hl; exact ih hls _ l hl
    · rw [if_neg h1] at hl
      by_cases h2 : isNumericLine (rstripPy l0) = true
      · rw [if_pos h2] at hl; exact ih hls _ l hl
      · rw [if_neg h2] at hl
        by_cases h3 : isDateLine (rstripPy l0) = true
        · rw [if_pos h3] at hl; exact ih hls _ l hl
        · rw [if_neg h3] at hl
          by_cases h4 : rstripPy l0 = ",".data
          · rw [if_pos h4] at hl; exact ih hls _ l hl
          · rw [if_neg h4] at hl
            by_cases h5 : rstripPy l0 = []
            · rw [if_pos h5] at hl
              cases b with
              | true => exact ih hls _ l hl
              | false =>
                rcases List.mem_cons.mp hl with rfl | h
                · simp
                · exact ih hls _ l h
            · rw [if_neg h5] at hl
              rcases List.mem_cons.mp hl with rfl | h
              · exact hstr
              · exact ih hls _ l h

/-- The cleaning loop emits no two adjacent blank lines, and none at the
head while the previous line was blank. -/
theorem cleanLines_chain (ls : List (List Char)) :
    ∀ (b : Bool),
      List.Chain' (fun a c => ¬(a = [] ∧ c = [])) (cleanLines b ls) ∧
      (b = true → (cleanLines b ls).head? ≠ some []) := by
  induction ls with
  | nil => intro b; simp [cleanLines]
  | cons l0 ls ih =>
    intro b
    simp only [cleanLines]
    by_cases h1 : rstripPy l0 = "¶".data ∨ rstripPy l0 = "&para;".data ∨
        isArtifactLine (rstripPy l0) = true
    · rw [if_pos h1]; exact ih b
    · rw [if_neg h1]
      by_cases h2 : isNumericLine (rstripPy l0) = true
      · rw [if_pos h2]; exact ih b
      · rw [if_neg h2]
        by_cases h3 : isDateLine (rstripPy l0) = true
        · rw [if_pos h3]; exact ih b
        · rw [if_neg h3]
          by_cases h4 : rstripPy l0 = ",".data
          · rw [if_pos h4]; exact ih b
          · rw [if_neg h4]
            by_cases h5 : rstripPy l0 = []
            · rw [if_pos h5]
              cases b with
              | true => exact ⟨(ih true).1, fun _ => (ih true).2 rfl⟩
              | false =>
                refine ⟨?_, fun h => by simp at h⟩
                refine List.Chain'.cons' (ih true).1 ?_
                intro y hy
                intro hcon
                exact (ih true).2 rfl (by rw [hcon.2] at hy; exact hy)
            · rw [if_neg h5]
              refine ⟨?_, ?_⟩
              · refine List.Chain'.cons' (ih false).1 ?_
                intro y hy hcon
                exact h5 hcon.1
              · intro _
                intro hcon
                simp only [List.head?_cons, Option.some.injEq] at hcon
                exact h5 hcon

/-- Lines already in normal form with no adjacent blanks pass the cleaning
loop unchanged. -/
theorem cleanLines_fixed (ls : List (List Char)) :
    (∀ l ∈ ls, OkLine l) →
    List.Chain' (fun a c => ¬(a = [] ∧ c = [])) ls →
    ∀ (b : Bool), (b = true → ls.head? ≠ some []) → cleanLines b ls = ls := by
  induction ls with
  | nil => intro _ _ b _; simp [cleanLines]
  | cons l0 ls ih =>
    intro hok hch b hh
    obtain ⟨hr, h1, h2, h3, h4⟩ := hok l0 (List.mem_cons_self _ _)
    have hok' : ∀ l ∈ ls, OkLine l := fun l hl => hok l (List.mem_cons_of_mem _ hl)
    have hch' : List.Chain' (fun a c => ¬(a = [] ∧ c = [])) ls := hch.tail
    simp only [cleanLines, hr]
    rw [if_neg h1, if_neg h2, if_neg h3, if_neg h4]
    by_cases h5 : l0 = []
    · rw [if_pos h5]
      have hb : b = false := by
        cases b
        · rfl
        · exact absurd (show (l0 :: ls).head? = some [] by rw [h5]; rfl) (hh rfl)
      subst hb
      show [] :: cleanLines true ls = l0 :: ls
      rw [h5]
      congr 1
      apply ih hok' hch' true
      intro _ hcon
      have hrel := (List.chain'_cons'.mp hch).1 [] (by rw [hcon]; rfl)
      exact hrel ⟨h5, rfl⟩
    · rw [if_neg h5]
      congr 1
      apply ih hok' hch' false
      intro h
      simp at h

/-- `takeWhile` stops exactly at the end of an all-satisfying block when the
next element fails the predicate. -/
theorem takeWhile_append_of_all {α : Type} (p : α → Bool) :
    ∀ (a b : List α), (∀ x ∈ a, p x = true) →
      (∀ c, b.head? = some c → p c = false) →
      (a ++ b).takeWhile p = a := by
  intro a
  induction a with
  | nil =>
    intro b _ hb
    cases b with
    | nil => rfl
    | cons c bs =>
      simp only [List.nil_append, List.takeWhile_cons, hb c rfl]
      simp
  | cons x a ih =>
    intro b ha hb
    have hx : p x = true := ha x (List.mem_cons_self _ _)
    simp only [List.cons_append, List.takeWhile_cons, hx, if_pos]
    rw [ih b (fun y hy => ha y (List.mem_cons_of_mem _ hy)) hb]

/-- `dropWhile` drains a block of satisfying elements. -/
theorem dropWhile_append_of_all {α : Type} (p : α → Bool) :
    ∀ (a b : List α), (∀ x ∈ a, p x = true) →
      (a ++ b).dropWhile p = b.dropWhile p := by
  intro a
  induction a with
  | nil => intro b _; rfl
  | cons x a ih =>
    intro b ha
    have hx : p x = true := ha x (List.mem_cons_self _ _)
    simp only [List.cons_append, List.dropWhile_cons, hx, if_pos]
    exact ih b (fun y hy => ha y (List.mem_cons_of_mem _ hy))

/-- `rdropWhile` over an append keeps the left part intact when the right
part does not vanish. -/
theorem rdropWhile_append_of_ne {α : Type} (p : α → Bool) (a b : List α)
    (hb : b.rdropWhile p ≠ []) :
    (a ++ b).rdropWhile p = a ++ b.rdropWhile p := by
  have hrev : (b.reverse.dropWhile p).isEmpty = false := by
    cases hbe : b.reverse.dropWhile p with
    | nil =>
      exfalso
      apply hb
      rw [List.rdropWhile, hbe, List.reverse_nil]
    | cons x xs => rfl
  rw [List.rdropWhile, List.reverse_append, List.dropWhile_append, hrev]
  simp only [Bool.false_eq_true, if_false, List.reverse_append, List.reverse_reverse]
  rw [List.rdropWhile]

/-- A list headed by a surviving element does not right-strip to nil. -/
theorem rdropWhile_ne_nil_of_head {α : Type} (p : α → Bool) (l : List α)
    (c : α) (hc : l.head? = some c) (hpc : p c = false) :
    l.rdropWhile p ≠ [] := by
  intro hcon
  have hall := List.rdropWhile_eq_nil_iff.mp hcon
  have hcm : c ∈ l := List.mem_of_mem_head? (by rw [hc]; rfl)
  rw [hall c hcm] at hpc
  exact Bool.noConfusion hpc

/-- Stripping a canonical header line (1–6 hashes, a run of whitespace, then
text starting with a non-space) produces a line the header regex recognizes
with the hash count as level and the right-stripped text as title. -/
theorem pstrip_header_decomp (k : Nat) (sp txt : List Char) (hk1 : 1 ≤ k)
    (hk6 : k ≤ 6) (hsp : sp ≠ []) (hspall : ∀ c ∈ sp, isPySpace c = true)
    (c0 : Char) (hc0 : txt.head? = some c0) (hc0n : isPySpace c0 = false) :
    headerOf (pstrip (List.replicate k '#' ++ sp ++ txt)) =
      some (k, rstripPy txt) ∧
    (pstrip (List.replicate k '#' ++ sp ++ txt)).head? = some '#' := by
  obtain ⟨k', rfl⟩ : ∃ k', k = k' + 1 := ⟨k - 1, by omega⟩
  obtain ⟨c1, sp', rfl⟩ : ∃ c1 sp', sp = c1 :: sp' := by
    cases sp with
    | nil => exact absurd rfl hsp
    | cons c1 sp' => exact ⟨c1, sp', rfl⟩
  have hc1 : isPySpace c1 = true := hspall c1 (List.mem_cons_self _ _)
  simp only [rstripPy, List.append_assoc, List.cons_append]
  have hrt_ne : txt.rdropWhile isPySpace ≠ [] :=
    rdropWhile_ne_nil_of_head isPySpace txt c0 hc0 hc0n
  have hrt_head : (txt.rdropWhile isPySpace).head? = some c0 := by
    cases hr : txt.rdropWhile isPySpace with
    | nil => exact absurd hr hrt_ne
    | cons x xs =>
      have hx : txt.head? = some x :=
        head?_of_pre (List.rdropWhile_prefix isPySpace txt) (by rw [hr]; rfl)
      rw [hx] at hc0
      rw [Option.some_inj.mp hc0]
      rfl
  have hsptxt : (c1 :: (sp' ++ txt)).rdropWhile isPySpace =
      c1 :: (sp' ++ txt.rdropWhile isPySpace) := by
    have h := rdropWhile_append_of_ne isPySpace (c1 :: sp') txt hrt_ne
    simpa only [List.cons_append] using h
  have hl2 : (List.replicate (k' + 1) '#' ++
      (c1 :: (sp' ++ txt))).rdropWhile isPySpace =
      List.replicate (k' + 1) '#' ++ (c1 :: (sp' ++ txt.rdropWhile isPySpace)) := by
    have h := rdropWhile_append_of_ne isPySpace (List.replicate (k' + 1) '#')
      (c1 :: (sp' ++ txt)) (by rw [hsptxt]; simp)
    rw [hsptxt] at h
    exact h
  have hdw : (List.replicate (k' + 1) '#' ++
      (c1 :: (sp' ++ txt))).dropWhile isPySpace =
      List.replicate (k' + 1) '#' ++ (c1 :: (sp' ++ txt)) := by
    simp only [List.replicate_succ, List.cons_append]
    exact List.dropWhile_cons_of_neg (by decide)
  have hps : pstrip (List.replicate (k' + 1) '#' ++ (c1 :: (sp' ++ txt))) =
      List.replicate (k' + 1) '#' ++ (c1 :: (sp' ++ txt.rdropWhile isPySpace)) := by
    unfold pstrip
    rw [hdw]
    exact hl2
  have hrtx : pstrip (c1 :: (sp' ++ txt.rdropWhile isPySpace)) =
      txt.rdropWhile isPySpace := by
    have hd1 : (c1 :: (sp' ++ txt.rdropWhile isPySpace)).dropWhile isPySpace =
        (txt.rdropWhile isPySpace).dropWhile isPySpace := by
      have h := dropWhile_append_of_all isPySpace (c1 :: sp')
        (txt.rdropWhile isPySpace) hspall
      simpa only [List.cons_append] using h
    have hd2 : (txt.rdropWhile isPySpace).dropWhile isPySpace =
        txt.rdropWhile isPySpace := by
      cases hr : txt.rdropWhile isPySpace with
      | nil => rfl
      | cons x xs =>
        have hx : x = c0 := by
          rw [hr] at hrt_head
          exact Option.some_inj.mp hrt_head
        subst hx
        exact List.dropWhile_cons_of_neg (by rw [hc0n]; exact Bool.noConfusion)
    unfold pstrip
    rw [hd1, hd2]
    exact rdropWhile_idem isPySpace txt
  refine ⟨?_, ?_⟩
  · rw [hps]
    have htw : (List.replicate (k' + 1) '#' ++
        (c1 :: (sp' ++ txt.rdropWhile isPySpace))).takeWhile (· == '#') =
        List.replicate (k' + 1) '#' := by
      refine takeWhile_append_of_all _ _ _ ?_ ?_
      · intro x hx
        rw [List.eq_of_mem_replicate hx]
        rfl
      · intro c hc
        have hcc : c = c1 := (by simpa using hc : c1 = c).symm
        subst hcc
        cases hcb : (c == '#') with
        | false => rfl
        | true =>
          have hch : c = '#' := beq_iff_eq.mp hcb
          rw [hch] at hc1
          exact absurd hc1 (by decide)
    simp only [headerOf, htw, List.length_replicate]
    rw [if_pos (by omega : 1 ≤ k' + 1 ∧ k' + 1 ≤ 6)]
    have hdrop : (List.replicate (k' + 1) '#' ++
        (c1 :: (sp' ++ txt.rdropWhile isPySpace))).drop (k' + 1) =
        c1 :: (sp' ++ txt.rdropWhile isPySpace) := by
      have hdl := List.drop_left (List.replicate (k' + 1) '#')
        (c1 :: (sp' ++ txt.rdropWhile isPySpace))
      rwa [List.length_replicate] at hdl
    rw [hdrop]
    show (if isPySpace c1 ∧ pstrip (c1 :: (sp' ++ txt.rdropWhile isPySpace)) ≠ [] then
        some (k' + 1, pstrip (c1 :: (sp' ++ txt.rdropWhile isPySpace)))
      else none) = some (k' + 1, txt.rdropWhile isPySpace)
    rw [if_pos ⟨hc1, by rw [hrtx]; exact hrt_ne⟩, hrtx]
  · rw [hps, List.replicate_succ]
    rfl

/-- The last element surviving a rear `rdropWhile` falsifies the
predicate. -/
theorem rdropWhile_getLast?_false {α : Type} (p : α → Bool) (l : List α) :
    ∀ x, (l.rdropWhile p).getLast? = some x → p x = false := by
  intro x hx
  rw [List.getLast?_eq_head?_reverse, reverse_rdropWhile] at hx
  exact head?_dropWhile_false p _ x hx

/-- A newline-terminated join of lines in cleaned normal form is a fixed
point of `clean_markdown`. -/
theorem clean_markdown_fix (out : List (List Char))
    (hok : ∀ l ∈ out, OkLine l)
    (hch : List.Chain' (fun a c => ¬(a = [] ∧ c = [])) out)
    (hlast : out.getLast? ≠ some [])
    (hnl : ∀ l ∈ out, '\n' ∉ l) :
    clean_markdown (joinNL out ++ ['\n']) = joinNL out ++ ['\n'] := by
  by_cases hne : out = []
  · subst hne
    decide
  · unfold clean_markdown
    rw [splitNL_joinNL_concat out hne hnl]
    rw [cleanLines_fixed (out ++ [[]]) ?okc ?chc false (fun h => Bool.noConfusion h)]
    case okc =>
      intro l hl
      rcases List.mem_append.mp hl with hl | hl
      · exact hok l hl
      · rcases List.mem_singleton.mp hl with rfl
        exact okLine_nil
    case chc =>
      refine List.chain'_append.mpr ⟨hch, List.chain'_singleton _, ?_⟩
      intro x hx y _
      intro hcon
      apply hlast
      rw [Option.mem_def] at hx
      rw [hx, hcon.1]
    rw [List.rdropWhile_concat_pos _ _ _ (by simp)]
    rw [List.rdropWhile_eq_self_iff.mpr ?selflast]
    case selflast =>
      intro h hcon
      apply hlast
      rw [List.getLast?_eq_getLast out h]
      simp only [decide_eq_true_eq] at hcon
      rw [hcon]

/-- A non-fence line leaves the fence state unchanged. -/
theorem fenceStep_of_not_fence (st : Option (List Char)) (l : List Char)
    (h : ¬((pstrip l).take 3 = "```".data ∨ (pstrip l).take 3 = "~~~".data)) :
    fenceStep st l = st := by
  simp [fenceStep, h]

/-- Shifting a scanner certificate across the head line. -/
theorem sound_shift (P : List Char → Prop) (l0 : List Char) (ls : List (List Char))
    (n : Nat) (st st' : Option (List Char)) (line : Nat)
    (hstep : fenceStep st l0 = st')
    (hrec : ∃ t l, line = (n + 1) + t ∧ (ls.take t).foldl fenceStep st' = none ∧
      ls[t]? = some l ∧ P l) :
    ∃ t l, line = n + t ∧ ((l0 :: ls).take t).foldl fenceStep st = none ∧
      (l0 :: ls)[t]? = some l ∧ P l := by
  obtain ⟨t, l, h1, h2, h3, h4⟩ := hrec
  refine ⟨t + 1, l, by omega, ?_, by simpa using h3, h4⟩
  rw [List.take_succ_cons, List.foldl_cons, hstep]
  exact h2

/-- Every header the scanner reports sits on a line reached outside any
fence, not indented as code, and matching the header regex. -/
theorem parseHdrAux_sound (m : AnchorMap) (ls : List (List Char)) :
    ∀ (n : Nat) (b : Bool) (mk : List Char),
      ∀ h ∈ parseHdrAux m n b mk ls,
      ∃ t l, h.line_number = n + t ∧
        (ls.take t).foldl fenceStep (stOf b mk) = none ∧
        ls[t]? = some l ∧
        (("    ".data).isPrefixOf l = false ∧
          ((['\t'] : List Char).isPrefixOf l = false ∧
          headerOf (pstrip l) = some (h.level, h.title))) := by
  induction ls with
  | nil => intro n b mk h hh; simp [parseHdrAux] at hh
  | cons l0 ls ih =>
    intro n b mk h hh
    rw [parseHdrAux] at hh
    by_cases hf : (pstrip l0).take 3 = "```".data ∨ (pstrip l0).take 3 = "~~~".data
    · rw [if_pos hf] at hh
      by_cases hb : b = true
      · rw [if_neg (by simp [hb])] at hh
        by_cases hpre : mk.isPrefixOf (pstrip l0) = true
        · rw [if_pos hpre] at hh
          refine sound_shift _ l0 ls n _ _ _ ?_ (ih (n + 1) false [] h hh)
          simp [fenceStep, hf, stOf, hb, hpre]
        · rw [if_neg hpre] at hh
          refine sound_shift _ l0 ls n _ _ _ ?_ (ih (n + 1) b mk h hh)
          simp [fenceStep, hf, stOf, hb, hpre]
      · rw [if_pos hb] at hh
        have hb' : b = false := by simpa using hb
        refine sound_shift _ l0 ls n _ _ _ ?_ (ih (n + 1) true _ h hh)
        simp [fenceStep, hf, stOf, hb']
    · rw [if_neg hf] at hh
      have hstep : fenceStep (stOf b mk) l0 = stOf b mk := fenceStep_of_not_fence _ _ hf
      by_cases hb : b = true
      · rw [if_pos hb] at hh
        exact sound_shift _ l0 ls n _ _ _ hstep (ih (n + 1) b mk h hh)
      · rw [if_neg hb] at hh
        by_cases hind : (("    ".data).isPrefixOf l0 = true) ∨
            ((['\t'] : List Char).isPrefixOf l0 = true)
        · rw [if_pos hind] at hh
          exact sound_shift _ l0 ls n _ _ _ hstep (ih (n + 1) b mk h hh)
        · rw [if_neg hind] at hh
          have hb' : b = false := by simpa using hb
          subst hb'
          cases hho : headerOf (pstrip l0) with
          | none =>
            rw [hho] at hh
            exact sound_shift _ l0 ls n _ _ _ hstep (ih (n + 1) false mk h hh)
          | some pair =>
            rw [hho] at hh
            rcases List.mem_cons.mp hh with rfl | hh'
            · refine ⟨0, l0, by simp, by simp [stOf], by simp, ?_, ?_, ?_⟩
              · cases hi : ("    ".data).isPrefixOf l0
                · rfl
                · exact absurd (Or.inl hi) hind
              · cases hi : (['\t'] : List Char).isPrefixOf l0
                · rfl
                · exact absurd (Or.inr hi) hind
              · rw [hho]
            · exact sound_shift _ l0 ls n _ _ _ hstep (ih (n + 1) false mk h hh')

/-- Every canonical header line reached outside any fence is reported by the
scanner with its hash count as level and right-stripped text as title. -/
theorem parseHdrAux_complete (m : AnchorMap) (ls : List (List Char)) :
    ∀ (n : Nat) (b : Bool) (mk : List Char) (t k : Nat) (sp txt : List Char) (c0 : Char),
      ls[t]? = some (List.replicate k '#' ++ sp ++ txt) →
      (ls.take t).foldl fenceStep (stOf b mk) = none →
      1 ≤ k → k ≤ 6 → sp ≠ [] → (∀ c ∈ sp, isPySpace c = true) →
      txt.head? = some c0 → isPySpace c0 = false →
      ∃ h ∈ parseHdrAux m n b mk ls,
        h.line_number = n + t ∧ h.level = k ∧ h.title = rstripPy txt := by
  induction ls with
  | nil => intro n b mk t k sp txt c0 hget; simp at hget
  | cons l0 ls ih =>
    intro n b mk t k sp txt c0 hget hfold hk1 hk6 hsp hspall hc0 hc0n
    cases t with
    | zero =>
      simp only [List.getElem?_cons_zero, Option.some.injEq] at hget
      subst hget
      simp only [List.take_zero, List.foldl_nil] at hfold
      have hb : b = false := by
        cases b
        · rfl
        · simp [stOf] at hfold
      subst hb
      obtain ⟨hho, hhead⟩ :=
        pstrip_header_decomp k sp txt hk1 hk6 hsp hspall c0 hc0 hc0n
      rw [parseHdrAux]
      have hnf : ¬((pstrip (List.replicate k '#' ++ sp ++ txt)).take 3 = "```".data ∨
          (pstrip (List.replicate k '#' ++ sp ++ txt)).take 3 = "~~~".data) := by
        intro hcon
        cases hpx : pstrip (List.replicate k '#' ++ sp ++ txt) with
        | nil =>
          rw [hpx] at hcon
          rcases hcon with hcon' | hcon' <;> exact absurd hcon' (by decide)
        | cons x xs =>
          rw [hpx] at hhead
          have hx2 : x = '#' := by simpa using hhead
          rcases hcon with hcon' | hcon' <;>
          · rw [hpx] at hcon'
            have hcc : x :: List.take 2 xs = _ := hcon'
            have hx := (List.cons.injEq _ _ _ _).mp hcc |>.1
            rw [hx2] at hx
            exact absurd hx (by decide)
      rw [if_neg hnf, if_neg (by simp : ¬(false = true))]
      have hX : ∃ rest, List.replicate k '#' ++ sp ++ txt = '#' :: rest := by
        obtain ⟨k', rfl⟩ : ∃ k', k = k' + 1 := ⟨k - 1, by omega⟩
        exact ⟨List.replicate k' '#' ++ sp ++ txt, by
          simp [List.replicate_succ]⟩
      obtain ⟨rest, hrest⟩ := hX
      have hind : ¬((("    ".data).isPrefixOf
          (List.replicate k '#' ++ sp ++ txt) = true) ∨
          ((['\t'] : List Char).isPrefixOf
          (List.replicate k '#' ++ sp ++ txt) = true)) := by
        rw [hrest]
        intro hcon
        rcases hcon with hcon | hcon <;>
        · have hpref := List.isPrefixOf_iff_prefix.mp hcon
          have := head?_of_pre hpref (by rfl)
          simp at this
      rw [if_neg hind, hho]
      exact ⟨_, List.mem_cons_self _ _, by simp, rfl, rfl⟩
    | succ t =>
      simp only [List.getElem?_cons_succ] at hget
      rw [List.take_succ_cons, List.foldl_cons] at hfold
      rw [parseHdrAux]
      by_cases hf : (pstrip l0).take 3 = "```".data ∨ (pstrip l0).take 3 = "~~~".data
      · rw [if_pos hf]
        by_cases hb : b = true
        · rw [if_neg (by simp [hb])]
          by_cases hpre : mk.isPrefixOf (pstrip l0) = true
          · rw [if_pos hpre]
            have hst : fenceStep (stOf b mk) l0 = stOf false [] := by
              simp [fenceStep, hf, stOf, hb, hpre]
            rw [hst] at hfold
            obtain ⟨h, hmem, h1, h2, h3⟩ :=
              ih (n + 1) false [] t k sp txt c0 hget hfold hk1 hk6 hsp hspall hc0 hc0n
            exact ⟨h, hmem, by omega, h2, h3⟩
          · rw [if_neg hpre]
            have hst : fenceStep (stOf b mk) l0 = stOf b mk := by
              simp [fenceStep, hf, stOf, hb, hpre]
            rw [hst] at hfold
            obtain ⟨h, hmem, h1, h2, h3⟩ :=
              ih (n + 1) b mk t k sp txt c0 hget hfold hk1 hk6 hsp hspall hc0 hc0n
            exact ⟨h, hmem, by omega, h2, h3⟩
        · rw [if_pos hb]
          have hb' : b = false := by simpa using hb
          have hst : fenceStep (stOf b mk) l0 = stOf true ((pstrip l0).take 3) := by
            simp [fenceStep, hf, stOf, hb']
          rw [hst] at hfold
          obtain ⟨h, hmem, h1, h2, h3⟩ :=
            ih (n + 1) true _ t k sp txt c0 hget hfold hk1 hk6 hsp hspall hc0 hc0n
          exact ⟨h, hmem, by omega, h2, h3⟩
      · rw [if_neg hf]
        have hst : fenceStep (stOf b mk) l0 = stOf b mk := fenceStep_of_not_fence _ _ hf
        rw [hst] at hfold
        by_cases hb : b = true
        · rw [if_pos hb]
          obtain ⟨h, hmem, h1, h2, h3⟩ :=
            ih (n + 1) b mk t k sp txt c0 hget hfold hk1 hk6 hsp hspall hc0 hc0n
          exact ⟨h, hmem, by omega, h2, h3⟩
        · rw [if_neg hb]
          by_cases hind : (("    ".data).isPrefixOf l0 = true) ∨
              ((['\t'] : List Char).isPrefixOf l0 = true)
          · rw [if_pos hind]
            obtain ⟨h, hmem, h1, h2, h3⟩ :=
              ih (n + 1) b mk t k sp txt c0 hget hfold hk1 hk6 hsp hspall hc0 hc0n
            exact ⟨h, hmem, by omega, h2, h3⟩
          · rw [if_neg hind]
            obtain ⟨h, hmem, h1, h2, h3⟩ :=
              ih (n + 1) b mk t k sp txt c0 hget hfold hk1 hk6 hsp hspall hc0 hc0n
            cases hho : headerOf (pstrip l0) with
            | none =>
              exact ⟨h, hmem, by omega, h2, h3⟩
            | some pair =>
              exact ⟨h, List.mem_cons_of_mem _ hmem, by omega, h2, h3⟩

/-! ## Claim theorems -/

/-- C7 counterexample: on the header-free input `" x "` the single fallback
section's content is the input verbatim, which differs from the trimmed
input, refuting the claim that the content equals the full trimmed input. -/
theorem c7_trim_counterexample :
    split_into_sections .hierarchical " x ".data none =
      [{ title := "Document".data, content := " x ".data, level := 1,
         anchor_id := "document".data, start_line := 1, end_line := 1 }] ∧
    pstrip " x ".data ≠ " x ".data := by
  decide

/-- C7 (amended): when no headers are parsed, `split_into_sections` returns
exactly one section titled "Document" at level 1 with anchor "document" whose
content is the full input unchanged (not trimmed). -/
theorem c7_no_header_fallback (mode : SplittingMode) (md : List Char)
    (html : Option Node)
    (h : parse_markdown_headers md (anchorsFor html) = []) :
    split_into_sections mode md html =
      [{ title := "Document".data, content := md, level := 1,
         anchor_id := "document".data, start_line := 1,
         end_line := (splitNL md).length }] := by
  simp [split_into_sections, h]

/-- C7 witness: the fallback at the concrete header-free input "hello". -/
theorem c7_no_header_fallback_witness :
    split_into_sections .hierarchical "hello".data none =
      [{ title := "Document".data, content := "hello".data, level := 1,
         anchor_id := "document".data, start_line := 1, end_line := 1 }] :=
  c7_no_header_fallback .hierarchical "hello".data none (by decide)

/-- C8: when none of the four content containers (the known article class,
a generic content div, `main`, `body`) exists in the document, conversion
returns the sentinel error string. -/
theorem c8_no_container_error (soup : Node)
    (h1 : findDesc soup (fun n => n.name == some "article".data &&
        classMatch "md-content__inner md-typeset".data n) = none)
    (h2 : findDesc soup (fun n => n.name == some "div".data &&
        classMatch "md-content".data n) = none)
    (h3 : findDesc soup (fun n => n.name == some "main".data) = none)
    (h4 : findDesc soup (fun n => n.name == some "body".data) = none) :
    convert_html_to_markdown soup = "Error: Could not extract content from HTML.".data := by
  simp [convert_html_to_markdown, h1, h2, h3, h4, Option.orElse]

/-- C8 witness: a concrete container-free document yields the sentinel. -/
theorem c8_no_container_error_witness :
    convert_html_to_markdown noContainerHtml =
      "Error: Could not extract content from HTML.".data :=
  c8_no_container_error noContainerHtml rfl rfl rfl rfl

/-- C6 counterexample: with the anchor map mapping "Setup" to "setup-1", the
title "Setup Guide" resolves through the case-insensitive substring step to
"setup-1", not to the slug "setup-guide" the claim announces. -/
theorem c6_slug_counterexample :
    resolveAnchor "Setup Guide".data [("Setup".data, "setup-1".data)] = "setup-1".data ∧
    ("setup-1".data : List Char) ≠ "setup-guide".data := by
  decide

/-- C6 (amended): anchor resolution follows exact map lookup, then
case-insensitive exact match, then case-insensitive substring match in either
direction (first entry in map order), then the deterministic slug; with the
map mapping "Setup" to "setup-1" the title "Setup Guide" therefore resolves
to "setup-1" via the substring step, while its slug (reached only when no
entry matches) would be "setup-guide". -/
theorem c6_anchor_resolution_order (title : List Char) (m : AnchorMap) :
    (∀ v, dictGet m title = some v → v ≠ [] → resolveAnchor title m = v) ∧
    ((dictGet m title = none ∨ dictGet m title = some []) →
      resolveAnchor title m = find_closest_anchor_match title m) ∧
    (∀ e, m.find? (fun e => lowerStr e.1 = lowerStr title) = some e →
      find_closest_anchor_match title m = e.2) ∧
    (m.find? (fun e => lowerStr e.1 = lowerStr title) = none →
      ∀ e, m.find? (fun e => isSubstrOf (lowerStr title) (lowerStr e.1) ||
          isSubstrOf (lowerStr e.1) (lowerStr title)) = some e →
      find_closest_anchor_match title m = e.2) ∧
    (m.find? (fun e => lowerStr e.1 = lowerStr title) = none →
      m.find? (fun e => isSubstrOf (lowerStr title) (lowerStr e.1) ||
          isSubstrOf (lowerStr e.1) (lowerStr title)) = none →
      find_closest_anchor_match title m = generate_anchor_from_title title) ∧
    resolveAnchor "Setup Guide".data [("Setup".data, "setup-1".data)] = "setup-1".data ∧
    generate_anchor_from_title "Setup Guide".data = "setup-guide".data := by
  refine ⟨?_, ?_, ?_, ?_, ?_, by decide, by decide⟩
  · intro v hv hne
    simp [resolveAnchor, hv, hne]
  · intro hv
    rcases hv with hv | hv <;> simp [resolveAnchor, hv]
  · intro e he
    simp [find_closest_anchor_match, he]
  · intro h1 e he
    simp [find_closest_anchor_match, h1, he]
  · intro h1 h2
    simp [find_closest_anchor_match, h1, h2]

/-- C6 witness: exact lookup takes priority at a concrete map. -/
theorem c6_anchor_resolution_order_witness :
    resolveAnchor "A".data [("A".data, "x".data)] = "x".data :=
  (c6_anchor_resolution_order "A".data [("A".data, "x".data)]).1 "x".data (by decide) (by decide)

/-- C9: `clean_markdown` is idempotent, its result ends with exactly one
trailing newline, and the result is a newline-terminated join of lines with
no two adjacent blank lines and no trailing blank line. -/
theorem c9_clean_markdown_idempotent (s : List Char) :
    clean_markdown (clean_markdown s) = clean_markdown s ∧
    (clean_markdown s).getLast? = some '\n' ∧
    ∃ out : List (List Char),
      clean_markdown s = joinNL out ++ ['\n'] ∧
      List.Chain' (fun a c => ¬(a = [] ∧ c = [])) out ∧
      out.getLast? ≠ some [] ∧ ∀ l ∈ out, '\n' ∉ l := by
  have hok : ∀ l ∈ (cleanLines false (splitNL s)).rdropWhile (· = []), OkLine l :=
    fun l hl => cleanLines_ok (splitNL s) false l
      ((List.rdropWhile_prefix _ _).subset hl)
  have hch := chain'_of_prefix
    (List.rdropWhile_prefix (· = []) (cleanLines false (splitNL s)))
    (cleanLines_chain (splitNL s) false).1
  have hnl : ∀ l ∈ (cleanLines false (splitNL s)).rdropWhile (· = []), '\n' ∉ l :=
    fun l hl => cleanLines_no_nl (splitNL s) (splitNL_no_nl s) false l
      ((List.rdropWhile_prefix _ _).subset hl)
  have hlast : ((cleanLines false (splitNL s)).rdropWhile (· = [])).getLast? ≠ some [] := by
    intro hcon
    have := rdropWhile_getLast?_false (· = []) (cleanLines false (splitNL s)) [] hcon
    simp at this
  have hcm : clean_markdown s =
      joinNL ((cleanLines false (splitNL s)).rdropWhile (· = [])) ++ ['\n'] := rfl
  refine ⟨?_, ?_, ⟨_, hcm, hch, hlast, hnl⟩⟩
  · rw [hcm]
    exact clean_markdown_fix _ hok hch hlast hnl
  · rw [hcm]
    exact List.getLast?_concat _

/-- C5 counterexample: in `dupTitleHtml` the headings sharing text "T" are,
in document order, the `h2` with id "a" and then the `h1` with id "b"; the
recorded anchor is "a", the id of the earlier heading, because processing is
level-major (`h1` first), refuting later-in-document-order overwriting. -/
theorem c5_doc_order_counterexample :
    docHeadingEntries dupTitleHtml = [("T".data, "a".data), ("T".data, "b".data)] ∧
    dictGet (extract_section_anchors_from_html dupTitleHtml) "T".data = some "a".data ∧
    ("a".data : List Char) ≠ "b".data := by
  decide

/-- C5 (amended): for duplicate cleaned heading texts, the recorded anchor id
is the last write in level-major processing order — all `h1` headings in
document order, then `h2`, …, then `h6` — so document order breaks ties only
within one heading level, while across levels the numerically larger level
wins. -/
theorem c5_last_write_level_major (t : Node) (k : List Char) :
    dictGet (extract_section_anchors_from_html t) k = lastWrite (levelMajorEntries t) k := by
  rw [extract_eq_fold, foldl_insert_lookup]
  simp [dictGet]

/-- C2 counterexample: on `"# A\n\n# B"` the two non-hierarchical sections
have stripped contents "# A" and "# B", so neither plain concatenation nor
newline-joining of the contents reproduces the header-bearing region
`"# A\n\n# B"` — the blank line between the sections is lost to trimming. -/
theorem c2_concat_counterexample :
    ((split_non_hierarchical (splitNL "# A\n\n# B".data)
        (parse_markdown_headers "# A\n\n# B".data [])).map
          (fun s => s.content)).flatten ≠ "# A\n\n# B".data ∧
    joinNL ((split_non_hierarchical (splitNL "# A\n\n# B".data)
        (parse_markdown_headers "# A\n\n# B".data [])).map
          (fun s => s.content)) ≠ "# A\n\n# B".data := by
  decide

/-- C2 (amended): in non-hierarchical mode section i spans from header i's
line to the line before header i+1's line (end of document for the last),
the spans are contiguous, and concatenating the sections' line ranges
reproduces exactly the header-bearing region with no gaps or overlaps; each
section's content is the text of its range with surrounding whitespace
stripped (so concatenating the content strings themselves need not
reproduce the region verbatim). -/
theorem c2_nonhier_spans_cover (lines : List (List Char)) (hs : List HeaderInfo)
    (hne : hs ≠ [])
    (hmono : List.Chain' (fun a b => a.line_number < b.line_number) hs) :
    (split_non_hierarchical lines hs).flatMap
        (fun s => sliceLines lines (s.start_line - 1) s.end_line) =
      lines.drop ((hs.head hne).line_number - 1) ∧
    List.Chain' (fun s t => t.start_line = s.end_line + 1)
      (split_non_hierarchical lines hs) ∧
    ∀ s ∈ split_non_hierarchical lines hs,
      s.content = pstrip (joinNL (sliceLines lines (s.start_line - 1) s.end_line)) := by
  refine ⟨?_, splitNH_contiguous lines hs hmono, splitNH_content lines hs⟩
  cases hs with
  | nil => exact absurd rfl hne
  | cons h rest => exact splitNH_cover lines rest h hmono

/-- C3: in hierarchical mode section i spans from header i's line to the line
before the next header of level less than or equal to header i's level (end
of document if none, which is `hEnd`), and for a header H' deeper than H and
occurring before H's next sibling-or-shallower header, H''s section content
is a substring of H's section content. -/
theorem c3_hier_superset (lines : List (List Char)) (hs : List HeaderInfo)
    (hpw : hs.Pairwise (fun a b => a.line_number < b.line_number))
    (hb : ∀ x ∈ hs, x.line_number ≤ lines.length)
    (i j : Nat) (hi' hj' : HeaderInfo)
    (hgi : hs[i]? = some hi') (hgj : hs[j]? = some hj')
    (hij : i < j) (hlv : hi'.level < hj'.level)
    (hbet : ∀ (k : Nat) (hk : HeaderInfo), i < k → k < j → hs[k]? = some hk →
      hi'.level < hk.level) :
    ∀ si sj : MarkdownSection,
      (split_hierarchical lines hs)[i]? = some si →
      (split_hierarchical lines hs)[j]? = some sj →
      si.start_line = hi'.line_number ∧ si.end_line = hEnd lines hs i ∧
        sj.content <:+: si.content := by
  intro si sj hsi hsj
  have hci := splitH_getElem? lines hs i hi' hgi
  have hcj := splitH_getElem? lines hs j hj' hgj
  rw [hsi] at hci
  rw [hsj] at hcj
  have hsival := Option.some_inj.mp hci
  have hsjval := Option.some_inj.mp hcj
  subst hsival
  subst hsjval
  refine ⟨rfl, rfl, ?_⟩
  have hline : hi'.line_number < hj'.line_number := by
    rw [List.pairwise_iff_getElem] at hpw
    obtain ⟨hli, hei⟩ := List.getElem?_eq_some_iff.mp hgi
    obtain ⟨hlj, hej⟩ := List.getElem?_eq_some_iff.mp hgj
    have := hpw i j hli hlj hij
    rw [hei, hej] at this
    exact this
  have hEndle := hEnd_mono lines hs
    (by rw [List.pairwise_iff_getElem] at *; exact hpw) hb i j hi' hj' hgi hgj hij hlv hbet
  have hslice := sliceLines_infix lines (hi'.line_number - 1) (hEnd lines hs i)
    (hj'.line_number - 1) (hEnd lines hs j) (by omega) hEndle
  have hjoin := joinNL_infix _ _ hslice
  have h1 := (pstrip_infix_self (joinNL (sliceLines lines (hj'.line_number - 1)
    (hEnd lines hs j)))).trans hjoin
  exact infix_pstrip _ _ h1 (pstrip_head?_false _) (pstrip_getLast?_false _)

/-- C3 witness: in `"# A\nx\n## B\ny"` the level-2 section's content is a
substring of the enclosing level-1 section's content. -/
theorem c3_hier_superset_witness :
    ∃ si sj : MarkdownSection,
      (split_hierarchical (splitNL "# A\nx\n## B\ny".data)
        (parse_markdown_headers "# A\nx\n## B\ny".data []))[0]? = some si ∧
      (split_hierarchical (splitNL "# A\nx\n## B\ny".data)
        (parse_markdown_headers "# A\nx\n## B\ny".data []))[1]? = some sj ∧
      sj.content <:+: si.content := by
  have h := c3_hier_superset (splitNL "# A\nx\n## B\ny".data)
    (parse_markdown_headers "# A\nx\n## B\ny".data []) (by decide) (by decide) 0 1
    { title := "A".data, level := 1, anchor_id := "a".data, line_number := 1 }
    { title := "B".data, level := 2, anchor_id := "b".data, line_number := 3 }
    (by decide) (by decide) (by decide) (by decide)
    (by intro k hk h1 h2 _; omega)
  refine ⟨MarkdownSection.mk "A".data "# A\nx\n## B\ny".data 1 "a".data 1 4,
    MarkdownSection.mk "B".data "## B\ny".data 2 "b".data 3 4,
    by decide, by decide, ?_⟩
  exact (h _ _ (by decide) (by decide)).2.2

/-- C10: for the same markdown and its parsed header list, hierarchical and
non-hierarchical splitting produce the same number of sections, agree
index-wise in title, level, anchor_id and start_line, and the hierarchical
end_line is greater than or equal to the non-hierarchical one. -/
theorem c10_hier_nonhier_alignment (md : List Char) (m : AnchorMap)
    (hne : parse_markdown_headers md m ≠ []) :
    (split_hierarchical (splitNL md) (parse_markdown_headers md m)).length =
      (split_non_hierarchical (splitNL md) (parse_markdown_headers md m)).length ∧
    ∀ (i : Nat) (sH sN : MarkdownSection),
      (split_hierarchical (splitNL md) (parse_markdown_headers md m))[i]? = some sH →
      (split_non_hierarchical (splitNL md) (parse_markdown_headers md m))[i]? = some sN →
      sH.title = sN.title ∧ sH.level = sN.level ∧ sH.anchor_id = sN.anchor_id ∧
        sH.start_line = sN.start_line ∧ sN.end_line ≤ sH.end_line := by
  constructor
  · rw [splitH_length, splitNH_length]
  · intro i sH sN hH hN
    have hlen : i < (parse_markdown_headers md m).length := by
      have h1 := List.getElem?_eq_some_iff.mp hH
      obtain ⟨hlt, _⟩ := h1
      rwa [splitH_length] at hlt
    obtain ⟨h, hh⟩ : ∃ h, (parse_markdown_headers md m)[i]? = some h :=
      ⟨_, List.getElem?_eq_getElem hlen⟩
    have hH' := splitH_getElem? (splitNL md) (parse_markdown_headers md m) i h hh
    have hN' := splitNH_getElem? (splitNL md) (parse_markdown_headers md m) i h hh
    rw [hH] at hH'
    rw [hN] at hN'
    have hSH := (Option.some.injEq _ _).mp hH'.symm
    have hSN := (Option.some.injEq _ _).mp hN'.symm
    subst hSH hSN
    refine ⟨rfl, rfl, rfl, rfl, ?_⟩
    exact nhEnd_le_hEnd (splitNL md) (parse_markdown_headers md m) i h hh
      (parse_markdown_headers_pairwise md m)
      (fun x hx => (parse_markdown_headers_bounds md m x hx).2)

/-- C10 witness: equal section counts at a concrete two-header document. -/
theorem c10_hier_nonhier_alignment_witness :
    (split_hierarchical (splitNL "# A\nx\n## B\ny".data)
        (parse_markdown_headers "# A\nx\n## B\ny".data [])).length =
      (split_non_hierarchical (splitNL "# A\nx\n## B\ny".data)
        (parse_markdown_headers "# A\nx\n## B\ny".data [])).length :=
  (c10_hier_nonhier_alignment "# A\nx\n## B\ny".data [] (by decide)).1

/-- C2 witness: coverage at the concrete input `"# A\n\n# B"`. -/
theorem c2_nonhier_spans_cover_witness :
    (split_non_hierarchical (splitNL "# A\n\n# B".data)
        (parse_markdown_headers "# A\n\n# B".data [])).flatMap
        (fun s => sliceLines (splitNL "# A\n\n# B".data) (s.start_line - 1) s.end_line) =
      (splitNL "# A\n\n# B".data).drop
        (((parse_markdown_headers "# A\n\n# B".data []).head (by decide)).line_number - 1) :=
  (c2_nonhier_spans_cover (splitNL "# A\n\n# B".data)
    (parse_markdown_headers "# A\n\n# B".data []) (by decide)
    (by
      rw [show parse_markdown_headers "# A\n\n# B".data [] =
          [{ title := "A".data, level := 1, anchor_id := "a".data, line_number := 1 },
           { title := "B".data, level := 1, anchor_id := "b".data, line_number := 3 }]
        from by decide]
      exact List.chain'_cons.mpr ⟨by decide, List.chain'_singleton _⟩)).1

/-- C4: fence-aware header parsing. Soundness: every header reported by
`parse_markdown_headers` sits on a line reached with no open fenced code
block, not indented by four spaces or a leading tab, and matching the header
regex, with the level being the hash count and the title the trimmed
trailing text. Completeness: every line made of 1-6 hashes, one or more
spaces, then text starting with a non-space character, reached with no open
fence, is reported with exactly that level, title (right-stripped text) and
line number. Concretely, the line "# not a header" inside an open
triple-backtick fence yields no header, while the same line on its own
yields a level-1 header titled "not a header" at line 1. -/
theorem c4_fence_aware_parsing (m : AnchorMap) (md : List Char) :
    (∀ h ∈ parse_markdown_headers md m,
      ∃ t l, h.line_number = 1 + t ∧
        fenceStateAt (splitNL md) h.line_number = none ∧
        (splitNL md)[t]? = some l ∧
        ("    ".data).isPrefixOf l = false ∧
        (['\t'] : List Char).isPrefixOf l = false ∧
        headerOf (pstrip l) = some (h.level, h.title)) ∧
    (∀ (t k : Nat) (sp txt : List Char) (c0 : Char),
      (splitNL md)[t]? = some (List.replicate k '#' ++ sp ++ txt) →
      fenceStateAt (splitNL md) (t + 1) = none →
      1 ≤ k → k ≤ 6 → sp ≠ [] → (∀ c ∈ sp, isPySpace c = true) →
      txt.head? = some c0 → isPySpace c0 = false →
      ∃ h ∈ parse_markdown_headers md m,
        h.line_number = 1 + t ∧ h.level = k ∧ h.title = rstripPy txt) ∧
    parse_markdown_headers "```\n# not a header\n```".data [] = [] ∧
    (parse_markdown_headers "# not a header".data []).map
      (fun h => (h.level, h.title, h.line_number)) =
      [(1, "not a header".data, 1)] := by
  refine ⟨?_, ?_, by decide, by decide⟩
  · intro h hh
    obtain ⟨t, l, h1, h2, h3, h4, h5, h6⟩ :=
      parseHdrAux_sound m (splitNL md) 1 false [] h hh
    have h2' : ((splitNL md).take t).foldl fenceStep none = none := by
      simpa [stOf] using h2
    refine ⟨t, l, h1, ?_, h3, h4, h5, h6⟩
    unfold fenceStateAt
    rw [h1, Nat.add_sub_cancel_left]
    exact h2'
  · intro t k sp txt c0 hget hst hk1 hk6 hsp hspall hc0 hc0n
    have hfold : ((splitNL md).take t).foldl fenceStep (stOf false []) = none := by
      have h' := hst
      unfold fenceStateAt at h'
      rw [Nat.add_sub_cancel] at h'
      simpa [stOf] using h'
    exact parseHdrAux_complete m (splitNL md) 1 false [] t k sp txt c0 hget hfold
      hk1 hk6 hsp hspall hc0 hc0n

/-- C4 witness: the completeness conjunct at a document whose fence closes
on line 3 reports the line-4 header "# T" as a level-1 header titled "T". -/
theorem c4_fence_aware_parsing_witness :
    ∃ h ∈ parse_markdown_headers "```\nx\n```\n# T".data [],
      h.line_number = 1 + 3 ∧ h.level = 1 ∧ h.title = rstripPy "T".data :=
  (c4_fence_aware_parsing [] "```\nx\n```\n# T".data).2.1 3 1 [' '] "T".data 'T'
    (by decide) (by decide) (by decide) (by decide) (by decide)
    (by decide) (by decide) (by decide)

end Onyx
